import Mathlib

/-!
# short-video-merge: natural ordering, discovery, manifest and merge orchestration

A shallow embedding of `video_merger.go` (native command line tool) and of
`go/main.go` (WebAssembly bridge), followed by the properties proved about them.

Conventions of the embedding
* A Go `string` is an immutable byte sequence: `GoString := List UInt8`.
  String literals are written `utf8 "..."`, the UTF-8 encoding Go uses for
  source literals.
* Go's `int` is taken to be 64 bits wide (amd64, arm64, wasm).
* Results of the operating system and of the transcoding engine are inputs of
  the model (fault records), so every exit path can be exercised.
-/

namespace VideoMerge

/-! ## Strings -/

/-- A Go string: a sequence of bytes. -/
abbrev GoString := List UInt8

/-- The bytes of a literal, UTF-8 encoded as the Go compiler does. -/
def utf8 (s : String) : GoString := s.toList.flatMap String.utf8EncodeChar

/-- Go's `a < b` on strings: lexicographic comparison of the bytes. -/
def stringLess : GoString → GoString → Bool
  | [], [] => false
  | [], _ :: _ => true
  | _ :: _, [] => false
  | x :: xs, y :: ys =>
    if x.toNat < y.toNat then true
    else if y.toNat < x.toNat then false
    else stringLess xs ys

/-- The class `\d` of Go's `regexp`: the ASCII digits `0`..`9`. -/
def isDigit (c : UInt8) : Bool := 48 ≤ c.toNat && c.toNat ≤ 57

/-- Go's slice expression `s[i:j]`. -/
def slice (s : GoString) (i j : Nat) : GoString := (s.drop i).take (j - i)

/-! ## `regexp.MustCompile("(\\d+)").FindAllStringIndex(s, -1)` -/

/-- Left-to-right scan for the successive leftmost-longest matches of `\d+`.
`pos` is the offset of the next byte, `start` the offset at which the digit run
being read began (if one is open). -/
def scanDigits : Nat → Option Nat → GoString → List (Nat × Nat)
  | _, none, [] => []
  | pos, some s, [] => [(s, pos)]
  | pos, none, c :: cs =>
    if isDigit c then scanDigits (pos + 1) (some pos) cs
    else scanDigits (pos + 1) none cs
  | pos, some s, c :: cs =>
    if isDigit c then scanDigits (pos + 1) (some s) cs
    else (s, pos) :: scanDigits (pos + 1) none cs

/-- The value of `numRegexp.FindAllStringIndex(s, -1)`: the `[start, end)` byte
offsets of all maximal digit runs of `s`, in order. -/
def findAllStringIndex (s : GoString) : List (Nat × Nat) := scanDigits 0 none s

/-! ## `strconv.Atoi` -/

/-- Width of Go's `int`. -/
def intSize : Nat := 64

/-- The largest `int`, `1<<63 - 1`. -/
def maxInt : Nat := 2 ^ (intSize - 1) - 1

/-- The number a string of decimal digits denotes. -/
def digitsValue (s : GoString) : Nat :=
  s.foldl (fun acc c => acc * 10 + (c.toNat - 48)) 0

/-- The first result of `strconv.Atoi(s)`, the only one `naturalLess` keeps.
On a non-empty run of digits it is the value denoted, or `maxInt` when that
value does not fit an `int` (`ParseInt` reports `ErrRange` together with the
largest value). On the empty string or on a byte that is not a digit the
result is `0`. Signs are not modelled: a match of `\d+` has none. -/
def atoi (s : GoString) : Int :=
  if s ≠ [] ∧ s.all isDigit = true then
    (if digitsValue s ≤ maxInt then (digitsValue s : Int) else (maxInt : Int))
  else 0

/-! ## `naturalLess` -/

/-- The `for` loop of `naturalLess`. The first argument bounds the number of
iterations; every iteration removes at least one byte from `a`, so
`a.length` iterations always suffice (`naturalLessLoop_fuel`). -/
def naturalLessLoop : Nat → GoString → GoString → Bool
  | 0, a, b => stringLess a b
  | fuel + 1, a, b =>
    match findAllStringIndex a, findAllStringIndex b with
    | ma :: _, mb :: _ =>
      if a.take ma.1 ≠ b.take mb.1 then
        stringLess (a.take ma.1) (b.take mb.1)
      else
        let numA := atoi (slice a ma.1 ma.2)
        let numB := atoi (slice b mb.1 mb.2)
        if numA ≠ numB then decide (numA < numB)
        else naturalLessLoop fuel (a.drop ma.2) (b.drop mb.2)
    | _, _ => stringLess a b

/-- The function `naturalLess(a, b string) bool`. -/
def naturalLess (a b : GoString) : Bool := naturalLessLoop a.length a b

/-! ## `isVideoFile` -/

/-- What the embedding takes from the Go standard library and the operating
system without modelling its internals. -/
structure Host where
  /-- The function `strings.ToLower`. -/
  toLower : GoString → GoString
  /-- The function `os.IsPathSeparator`. -/
  isPathSeparator : UInt8 → Bool
  /-- The function `filepath.Join` on two elements. -/
  join : GoString → GoString → GoString
  /-- The method `xorshift.Next` of package `sort`, as a function of its state. -/
  xorshift : Nat → Nat

/-- The byte `.`. -/
def period : UInt8 := 46

/-- The byte `'`. -/
def quote : UInt8 := 39

/-- The byte `\n`. -/
def newline : UInt8 := 10

/-- The variable `videoExtensions`. -/
def videoExtensions : List GoString :=
  [utf8 ".mp4", utf8 ".avi", utf8 ".mov", utf8 ".mkv", utf8 ".flv", utf8 ".wmv"]

/-- The call `strings.Count(s, sep)` for a separator `sep` of one byte. -/
def stringsCount (s : GoString) (sep : UInt8) : Nat := s.count sep

/-- The loop of `filepath.Ext`:
`for i := len(path) - 1; i >= 0 && !os.IsPathSeparator(path[i]); i--`,
the second argument being `i + 1`. -/
def extLoop (h : Host) (path : GoString) : Nat → GoString
  | 0 => []
  | i + 1 =>
    match path.get? i with
    | none => []
    | some c =>
      if h.isPathSeparator c then []
      else if c = period then path.drop i
      else extLoop h path i

/-- The function `filepath.Ext`. -/
def filepathExt (h : Host) (path : GoString) : GoString := extLoop h path path.length

/-- The function `isVideoFile(filename string) bool`. -/
def isVideoFile (h : Host) (filename : GoString) : Bool :=
  if stringsCount filename period ≠ 1 then false
  else
    let ext := h.toLower (filepathExt h filename)
    videoExtensions.any (fun v => ext = v)

/-! ## `sort.Sort`

The standard library's pattern-defeating quicksort (`sort.Sort` of Go 1.19
and later, file `zsortinterface.go`), written over a list instead of a
`sort.Interface`: `lessAt` is `data.Less`, `swapAt` is `data.Swap`, and every
function returns the slice it has rearranged. Loops that Go writes with a
condition are recursions over a bound on their iterations; the bound of each
loop is the number of indices it can still visit. -/

/-- The method `data.Less(i, j)` of a slice with the element order `less`. -/
def lessAt {α : Type} (less : α → α → Bool) (data : List α) (i j : Nat) : Bool :=
  match data.get? i, data.get? j with
  | some x, some y => less x y
  | _, _ => false

/-- The method `data.Swap(i, j)`. -/
def swapAt {α : Type} (data : List α) (i j : Nat) : List α :=
  match data.get? i, data.get? j with
  | some x, some y => (data.set i y).set j x
  | _, _ => data

/-- The inner loop of `insertionSort`,
`for j := i; j > a && data.Less(j, j-1); j-- { data.Swap(j, j-1) }`; the
second argument is `j`. -/
def insertionInner {α : Type} (less : α → α → Bool) (a : Nat) : Nat → List α → List α
  | 0, data => data
  | j + 1, data =>
    if a < j + 1 ∧ lessAt less data (j + 1) j = true then
      insertionInner less a j (swapAt data (j + 1) j)
    else data

/-- The outer loop of `insertionSort`, `for i := a + 1; i < b; i++`; the
second argument is `b - i`, the third is `i`. -/
def insertionOuter {α : Type} (less : α → α → Bool) (a : Nat) : Nat → Nat → List α → List α
  | 0, _, data => data
  | n + 1, i, data => insertionOuter less a n (i + 1) (insertionInner less a i data)

/-- The function `insertionSort(data, a, b)`. -/
def insertionSort {α : Type} (less : α → α → Bool) (data : List α) (a b : Nat) : List α :=
  insertionOuter less a (b - (a + 1)) (a + 1) data

/-- The function `siftDown(data, lo, hi, first)`; the loop variable `root`
starts at `lo` and more than doubles in every iteration, so `hi` iterations
suffice. The arguments after `first` are the bound and `root`. -/
def siftDown {α : Type} (less : α → α → Bool) (hi first : Nat) : Nat → Nat → List α → List α
  | 0, _, data => data
  | fuel + 1, root, data =>
    if 2 * root + 1 ≥ hi then data
    else
      let child :=
        if 2 * root + 1 + 1 < hi ∧
            lessAt less data (first + (2 * root + 1)) (first + (2 * root + 1) + 1) = true then
          2 * root + 1 + 1
        else 2 * root + 1
      if lessAt less data (first + root) (first + child) = false then data
      else siftDown less hi first fuel child (swapAt data (first + root) (first + child))

/-- The first loop of `heapSort`,
`for i := (hi - 1) / 2; i >= 0; i-- { siftDown(data, i, hi, first) }`; the
argument is `i + 1`. -/
def heapBuild {α : Type} (less : α → α → Bool) (hi first : Nat) : Nat → List α → List α
  | 0, data => data
  | i + 1, data => heapBuild less hi first i (siftDown less hi first hi i data)

/-- The second loop of `heapSort`, `for i := hi - 1; i >= 0; i--`
`{ data.Swap(first, first+i); siftDown(data, lo, i, first) }`; the argument
is `i + 1`. -/
def heapPop {α : Type} (less : α → α → Bool) (first : Nat) : Nat → List α → List α
  | 0, data => data
  | i + 1, data => heapPop less first i (siftDown less i first i 0 (swapAt data first (first + i)))

/-- The function `heapSort(data, a, b)`. -/
def heapSort {α : Type} (less : α → α → Bool) (data : List α) (a b : Nat) : List α :=
  heapPop less a (b - a) (heapBuild less (b - a) a ((b - a - 1) / 2 + 1) data)

/-- A loop `for i <= j && p(i) { i++ }`: the first argument is `j + 1 - i`,
the result is the final `i`. -/
def scanUp (p : Nat → Bool) : Nat → Nat → Nat
  | 0, i => i
  | n + 1, i => if p i = true then scanUp p n (i + 1) else i

/-- A loop `for i <= j && p(j) { j-- }`: the first argument is `j + 1 - i`,
the result is the final `j`. -/
def scanDown (p : Nat → Bool) : Nat → Nat → Nat
  | 0, j => j
  | n + 1, j => if p j = true then scanDown p n (j - 1) else j

/-- The `for` loop that ends `partition`: each iteration moves `i` and `j`
towards each other, so `b - a` iterations suffice. The result is the slice
and the final `j`. -/
def partitionLoop {α : Type} (less : α → α → Bool) (a : Nat) :
    Nat → Nat → Nat → List α → List α × Nat
  | 0, _, j, data => (data, j)
  | fuel + 1, i, j, data =>
    let i1 := scanUp (fun k => lessAt less data k a) (j + 1 - i) i
    let j1 := scanDown (fun k => !lessAt less data k a) (j + 1 - i1) j
    if i1 > j1 then (data, j1)
    else partitionLoop less a fuel (i1 + 1) (j1 - 1) (swapAt data i1 j1)

/-- The function `partition(data, a, b, pivot)`: the slice, `newpivot` and
`alreadyPartitioned`. -/
def partition {α : Type} (less : α → α → Bool) (data : List α) (a b pivot : Nat) :
    List α × Nat × Bool :=
  let data1 := swapAt data a pivot
  let i := scanUp (fun k => lessAt less data1 k a) (b - 1 + 1 - (a + 1)) (a + 1)
  let j := scanDown (fun k => !lessAt less data1 k a) (b - 1 + 1 - i) (b - 1)
  if i > j then (swapAt data1 j a, j, true)
  else
    let r := partitionLoop less a (b - a) (i + 1) (j - 1) (swapAt data1 i j)
    (swapAt r.1 r.2 a, r.2, false)

/-- The `for` loop of `partitionEqual`; the result is the slice and the final
`i`. -/
def partitionEqualLoop {α : Type} (less : α → α → Bool) (a : Nat) :
    Nat → Nat → Nat → List α → List α × Nat
  | 0, i, _, data => (data, i)
  | fuel + 1, i, j, data =>
    let i1 := scanUp (fun k => !lessAt less data a k) (j + 1 - i) i
    let j1 := scanDown (fun k => lessAt less data a k) (j + 1 - i1) j
    if i1 > j1 then (data, i1)
    else partitionEqualLoop less a fuel (i1 + 1) (j1 - 1) (swapAt data i1 j1)

/-- The function `partitionEqual(data, a, b, pivot)`: the slice and
`newpivot`. -/
def partitionEqual {α : Type} (less : α → α → Bool) (data : List α) (a b pivot : Nat) :
    List α × Nat :=
  partitionEqualLoop less a (b - a + 1) (a + 1) (b - 1) (swapAt data a pivot)

/-- The loop `for j := i - 1; j >= 1; j--` of `partialInsertionSort` that
shifts the smaller element to the left; the argument is `j`. -/
def shiftSmaller {α : Type} (less : α → α → Bool) : Nat → List α → List α
  | 0, data => data
  | j + 1, data =>
    if lessAt less data (j + 1) j = false then data
    else shiftSmaller less j (swapAt data (j + 1) j)

/-- The loop `for j := i + 1; j < b; j++` of `partialInsertionSort` that
shifts the greater element to the right; the arguments are `b - j` and `j`. -/
def shiftGreater {α : Type} (less : α → α → Bool) : Nat → Nat → List α → List α
  | 0, _, data => data
  | n + 1, j, data =>
    if lessAt less data j (j - 1) = false then data
    else shiftGreater less n (j + 1) (swapAt data j (j - 1))

/-- The loop `for j := 0; j < maxSteps; j++` of `partialInsertionSort`; the
arguments after `b` are `maxSteps - j` and `i`. -/
def partialInsertionSteps {α : Type} (less : α → α → Bool) (a b : Nat) :
    Nat → Nat → List α → List α × Bool
  | 0, _, data => (data, false)
  | steps + 1, i, data =>
    let i1 := scanUp (fun k => !lessAt less data k (k - 1)) (b - i) i
    if i1 = b then (data, true)
    else if b - a < 50 then (data, false)
    else
      let data1 := swapAt data i1 (i1 - 1)
      let data2 := if i1 - a ≥ 2 then shiftSmaller less (i1 - 1) data1 else data1
      let data3 := if b - i1 ≥ 2 then shiftGreater less (b - (i1 + 1)) (i1 + 1) data2 else data2
      partialInsertionSteps less a b steps i1 data3

/-- The function `partialInsertionSort(data, a, b)`, with `maxSteps = 5` and
`shortestShifting = 50`. -/
def partialInsertionSort {α : Type} (less : α → α → Bool) (data : List α) (a b : Nat) :
    List α × Bool :=
  partialInsertionSteps less a b 5 (a + 1) data

/-- The number of halvings that take `n` to zero; the first argument bounds
them, and `n` halvings always do. -/
def bitsLenLoop : Nat → Nat → Nat
  | 0, _ => 0
  | fuel + 1, n => if n = 0 then 0 else bitsLenLoop fuel (n / 2) + 1

/-- The function `bits.Len`: the number of bits needed to write `n`. -/
def bitsLen (n : Nat) : Nat := bitsLenLoop n n

/-- The method `xorshift.Next` on a state of 64 bits, with the three shift
distances it uses. -/
def xorshiftNext (s1 s2 s3 : Nat) (r : Nat) : Nat :=
  let r1 := r ^^^ ((r <<< s1) % 2 ^ 64)
  let r2 := r1 ^^^ (r1 >>> s2)
  r2 ^^^ ((r2 <<< s3) % 2 ^ 64)

/-- The index `other` that `breakPatterns` draws from a random number. -/
def breakIndex (length r : Nat) : Nat :=
  let other := r &&& (2 ^ bitsLen length - 1)
  if other ≥ length then other - length else other

/-- The function `breakPatterns(data, a, b)`; `next` is `xorshift.Next`. -/
def breakPatterns {α : Type} (next : Nat → Nat) (data : List α) (a b : Nat) : List α :=
  if b - a ≥ 8 then
    let idx := a + (b - a) / 4 * 2 - 1
    let r1 := next (b - a)
    let r2 := next r1
    let r3 := next r2
    swapAt (swapAt (swapAt data (idx - 1) (a + breakIndex (b - a) r1)) idx
      (a + breakIndex (b - a) r2)) (idx + 1) (a + breakIndex (b - a) r3)
  else data

/-- The type `sortedHint`. -/
inductive SortedHint
  | unknownHint
  | increasingHint
  | decreasingHint
  deriving DecidableEq

/-- The function `order2(data, a, b, swaps)`: the two indices and the new
value of `swaps`. -/
def order2 {α : Type} (less : α → α → Bool) (data : List α) (a b swaps : Nat) : Nat × Nat × Nat :=
  if lessAt less data b a = true then (b, a, swaps + 1) else (a, b, swaps)

/-- The function `median(data, a, b, c, swaps)`: the index of the median and
the new value of `swaps`. -/
def median {α : Type} (less : α → α → Bool) (data : List α) (a b c swaps : Nat) : Nat × Nat :=
  let r1 := order2 less data a b swaps
  let r2 := order2 less data r1.2.1 c r1.2.2
  let r3 := order2 less data r1.1 r2.1 r2.2.2
  (r3.2.1, r3.2.2)

/-- The function `medianAdjacent(data, a, swaps)`. -/
def medianAdjacent {α : Type} (less : α → α → Bool) (data : List α) (a swaps : Nat) : Nat × Nat :=
  median less data (a - 1) a (a + 1) swaps

/-- The function `choosePivot(data, a, b)`, with `shortestNinther = 50` and
`maxSwaps = 12`. -/
def choosePivot {α : Type} (less : α → α → Bool) (data : List α) (a b : Nat) :
    Nat × SortedHint :=
  let l := b - a
  let i := a + l / 4 * 1
  let j := a + l / 4 * 2
  let k := a + l / 4 * 3
  let r :=
    if l ≥ 8 then
      if l ≥ 50 then
        let ri := medianAdjacent less data i 0
        let rj := medianAdjacent less data j ri.2
        let rk := medianAdjacent less data k rj.2
        median less data ri.1 rj.1 rk.1 rk.2
      else median less data i j k 0
    else (j, 0)
  if r.2 = 0 then (r.1, .increasingHint)
  else if r.2 = 12 then (r.1, .decreasingHint)
  else (r.1, .unknownHint)

/-- The loop of `reverseRange`, `for i < j { data.Swap(i, j); i++; j-- }`; the
first argument bounds its iterations by half the length of the range. -/
def reverseLoop {α : Type} : Nat → Nat → Nat → List α → List α
  | 0, _, _, data => data
  | n + 1, i, j, data => if i < j then reverseLoop n (i + 1) (j - 1) (swapAt data i j) else data

/-- The function `reverseRange(data, a, b)`. -/
def reverseRange {α : Type} (data : List α) (a b : Nat) : List α :=
  reverseLoop ((b - a) / 2) a (b - 1) data

/-- The statements of one iteration of `pdqsort` that come before the
partitioning: `breakPatterns` with `limit--`, `choosePivot`, `reverseRange`
and `partialInsertionSort`. The result is the slice, the pivot, the new
`limit`, and whether `partialInsertionSort` found the slice sorted. -/
def pdqsortPrepare {α : Type} (next : Nat → Nat) (less : α → α → Bool) (data : List α)
    (a b limit : Nat) (wasBalanced wasPartitioned : Bool) : List α × Nat × Nat × Bool :=
  let data1 := if wasBalanced then data else breakPatterns next data a b
  let limit1 := if wasBalanced then limit else limit - 1
  let p := choosePivot less data1 a b
  let data2 := if p.2 = .decreasingHint then reverseRange data1 a b else data1
  let pivot := if p.2 = .decreasingHint then (b - 1) - (p.1 - a) else p.1
  let hint := if p.2 = .decreasingHint then SortedHint.increasingHint else p.2
  let s :=
    if wasBalanced ∧ wasPartitioned ∧ hint = .increasingHint then
      partialInsertionSort less data2 a b
    else (data2, false)
  (s.1, pivot, limit1, s.2)

/-- The function `pdqsort(data, a, b, limit)` with its local variables
`wasBalanced` and `wasPartitioned`: one call of this definition is one
iteration of its `for` loop, the recursive call of the source and the next
iteration both being calls with a shorter range. Every iteration shortens
`b - a`, so a bound above `b - a` is never used up. -/
def pdqsort {α : Type} (next : Nat → Nat) (less : α → α → Bool) :
    Nat → List α → Nat → Nat → Nat → Bool → Bool → List α
  | 0, data, _, _, _, _, _ => data
  | fuel + 1, data, a, b, limit, wasBalanced, wasPartitioned =>
    if b - a ≤ 12 then insertionSort less data a b
    else if limit = 0 then heapSort less data a b
    else
      let t := pdqsortPrepare next less data a b limit wasBalanced wasPartitioned
      if t.2.2.2 = true then t.1
      else if a > 0 ∧ lessAt less t.1 (a - 1) t.2.1 = false then
        let e := partitionEqual less t.1 a b t.2.1
        pdqsort next less fuel e.1 e.2 b t.2.2.1 wasBalanced wasPartitioned
      else
        let q := partition less t.1 a b t.2.1
        if q.2.1 - a < b - q.2.1 then
          pdqsort next less fuel (pdqsort next less fuel q.1 a q.2.1 t.2.2.1 true true)
            (q.2.1 + 1) b t.2.2.1 (decide (q.2.1 - a ≥ (b - a) / 8)) q.2.2
        else
          pdqsort next less fuel (pdqsort next less fuel q.1 (q.2.1 + 1) b t.2.2.1 true true)
            a q.2.1 t.2.2.1 (decide (b - q.2.1 ≥ (b - a) / 8)) q.2.2

/-- The function `sort.Sort` on a slice with the element order `less`. -/
def sortWith {α : Type} (next : Nat → Nat) (less : α → α → Bool) (data : List α) : List α :=
  if data.length ≤ 1 then data
  else pdqsort next less (data.length + 1) data 0 data.length (bitsLen data.length) true true

/-- The call `sort.Sort(naturalStrings(videoFiles))`: `Less(i, j)` is
`naturalLess(ns[i], ns[j])`. -/
def sortSort (h : Host) (videoFiles : List GoString) : List GoString :=
  sortWith h.xorshift naturalLess videoFiles

/-! ## `findVideoFiles` -/

/-- An entry returned by `ioutil.ReadDir`: `Name()` and `IsDir()`. -/
structure FileInfo where
  name : GoString
  isDir : Bool

/-- Failures of the native tool, one per `return err` of the source. -/
inductive MergeError
  /-- The directory could not be read (`ioutil.ReadDir`). -/
  | readDir
  /-- The error `fmt.Errorf("no video files to merge")`. -/
  | noVideoFiles
  /-- The call `os.Create(listPath)` failed. -/
  | create
  /-- A call `w.WriteString` failed. -/
  | write
  /-- The call `w.Flush()` failed. -/
  | flush
  /-- The call `cmd.StderrPipe()` failed. -/
  | stderrPipe
  /-- The call `cmd.StdoutPipe()` failed. -/
  | stdoutPipe
  /-- The call `cmd.Start()` failed. -/
  | start
  /-- The scanner of the engine's diagnostics failed. -/
  | scan
  /-- The call `cmd.Wait()` failed: the engine exited with an error. -/
  | wait
  deriving DecidableEq

/-- The `for _, file := range files` loop of `findVideoFiles`. -/
def collectVideoFiles (h : Host) (dir : GoString) (files : List FileInfo) : List GoString :=
  files.foldl
    (fun videoFiles file =>
      if !file.isDir && isVideoFile h file.name then videoFiles ++ [h.join dir file.name]
      else videoFiles)
    []

/-- The function `findVideoFiles(dir string) ([]string, error)`; `readDir` is
the result of `ioutil.ReadDir(dir)`, which lists the entries sorted by name. -/
def findVideoFiles (h : Host) (dir : GoString) (readDir : Except MergeError (List FileInfo)) :
    Except MergeError (List GoString) :=
  match readDir with
  | .error err => .error err
  | .ok files => .ok (sortSort h (collectVideoFiles h dir files))

/-- A host for worked examples: `/` separates path elements, `Join` of a
directory and a name puts `/` between them, `ToLower` acts on the ASCII
letters, and `xorshift.Next` shifts by 13, 7 and 17. -/
def unixHost : Host where
  toLower := fun s => s.map (fun c => if 65 ≤ c.toNat ∧ c.toNat ≤ 90 then c + 32 else c)
  isPathSeparator := fun c => c = 47
  join := fun dir name => dir ++ utf8 "/" ++ name
  xorshift := xorshiftNext 13 7 17

/-- As `unixHost`, with the shifts 13, 17 and 5 that other releases of the
library give `xorshift.Next`. -/
def unixHostAlt : Host := { unixHost with xorshift := xorshiftNext 13 17 5 }

/-! ## The manifest: `createFileList` -/

/-- The value of `fmt.Sprintf("file '%s'\n", file)`. -/
def sprintfFile (file : GoString) : GoString := utf8 "file '" ++ file ++ utf8 "'\n"

/-- A file system: paths with their contents, at most one entry per path. -/
abbrev FileSystem := List (GoString × GoString)

/-- Whether a path exists. -/
def fsExists (fs : FileSystem) (path : GoString) : Bool := fs.any (fun e => e.1 = path)

/-- The file system without the given path. -/
def fsRemove (fs : FileSystem) (path : GoString) : FileSystem := fs.filter (fun e => e.1 ≠ path)

/-- The file system after the path received the given content. -/
def fsWrite (fs : FileSystem) (path content : GoString) : FileSystem :=
  (path, content) :: fsRemove fs path

/-- The content stored under a path. -/
def fsRead (fs : FileSystem) (path : GoString) : Option GoString :=
  (fs.find? (fun e => e.1 = path)).map (fun e => e.2)

/-- What the native tool does to the outside world. -/
inductive Effect
  /-- The call `os.Create(path)`. -/
  | osCreate (path : GoString)
  /-- The call `os.Remove(path)`. -/
  | osRemove (path : GoString)
  /-- The call `cmd.Start()` with the given command line. -/
  | engineStart (argv : List GoString)
  deriving DecidableEq

/-- The outside world of the native tool. -/
structure World where
  fs : FileSystem
  trace : List Effect

/-- The behaviour of the operating system and of the engine during one run of
the native tool. -/
structure NativeFaults where
  /-- The call `os.Create` fails. -/
  createFails : Bool
  /-- The `i`-th call of `w.WriteString` fails. -/
  writeFails : Nat → Bool
  /-- The call `w.Flush()` fails. -/
  flushFails : Bool
  stderrPipeFails : Bool
  stdoutPipeFails : Bool
  startFails : Bool
  scanFails : Bool
  waitFails : Bool
  /-- The value of `getFFmpegPath()`. -/
  ffmpegPath : GoString
  /-- What the started engine does to the file system. -/
  engineFs : FileSystem → FileSystem

/-- The `for _, file := range videoFiles` loop of `createFileList`: `i` counts
the calls of `WriteString`, `buf` is what the writer has accepted. -/
def writeEntries (fl : NativeFaults) : Nat → List GoString → GoString → Except MergeError GoString
  | _, [], buf => .ok buf
  | i, file :: rest, buf =>
    if fl.writeFails i then .error .write
    else writeEntries fl (i + 1) rest (buf ++ sprintfFile file)

/-- The function `createFileList(videoFiles []string, listPath string) error`.
When a write fails, the bytes that reached the file before are not tracked:
the file exists, with the content `os.Create` left. -/
def createFileList (fl : NativeFaults) (videoFiles : List GoString) (listPath : GoString)
    (w : World) : Option MergeError × World :=
  let w1 : World := { w with trace := w.trace ++ [Effect.osCreate listPath] }
  if fl.createFails then (some .create, w1)
  else
    let w2 : World := { w1 with fs := fsWrite w1.fs listPath [] }
    match writeEntries fl 0 videoFiles [] with
    | .error err => (some err, w2)
    | .ok buf =>
      if fl.flushFails then (some .flush, w2)
      else (none, { w2 with fs := fsWrite w2.fs listPath buf })

/-! ## `mergeVideos` -/

/-- The name of the native manifest, `listPath := "video_list.txt"`. -/
def listPath : GoString := utf8 "video_list.txt"

/-- The command line of `exec.Command` in `mergeVideos`. -/
def engineArgv (fl : NativeFaults) (output : GoString) : List GoString :=
  [fl.ffmpegPath, utf8 "-f", utf8 "concat", utf8 "-safe", utf8 "0", utf8 "-i", listPath,
   utf8 "-c:v", utf8 "libx264", utf8 "-c:a", utf8 "aac", utf8 "-strict", utf8 "-2", output]

/-- The part of `mergeVideos` that follows `defer os.Remove(listPath)`, up to
its `return`. -/
def runEngine (fl : NativeFaults) (output : GoString) (w : World) : Option MergeError × World :=
  if fl.stderrPipeFails then (some .stderrPipe, w)
  else if fl.stdoutPipeFails then (some .stdoutPipe, w)
  else if fl.startFails then (some .start, w)
  else
    let w1 : World :=
      { fs := fl.engineFs w.fs, trace := w.trace ++ [Effect.engineStart (engineArgv fl output)] }
    if fl.scanFails then (some .scan, w1)
    else if fl.waitFails then (some .wait, w1)
    else (none, w1)

/-- The call `os.Remove(path)`; its error is dropped by `defer`. -/
def osRemove (path : GoString) (w : World) : World :=
  { fs := fsRemove w.fs path, trace := w.trace ++ [Effect.osRemove path] }

/-- The function `mergeVideos(videoFiles []string, output string) error`. -/
def mergeVideos (fl : NativeFaults) (videoFiles : List GoString) (output : GoString)
    (w : World) : Option MergeError × World :=
  if videoFiles.length = 0 then (some .noVideoFiles, w)
  else
    match createFileList fl videoFiles listPath w with
    | (some err, w1) => (some err, w1)
    | (none, w1) =>
      let r := runEngine fl output w1
      (r.1, osRemove listPath r.2)

/-! ## The WebAssembly bridge: `mergeVideosGo` -/

/-- The type `js.Type`. -/
inductive JsType
  | typeUndefined | typeNull | typeBoolean | typeNumber | typeString | typeSymbol
  | typeObject | typeFunction
  deriving DecidableEq

/-- A JavaScript value as `syscall/js` sees it. -/
inductive JsValue
  | undefined
  | null
  | boolean (b : Bool)
  /-- A number, with the text JavaScript prints for it. -/
  | number (shown : GoString)
  | string (s : GoString)
  | function (id : Nat)
  /-- An `Array`. -/
  | array (elems : List JsValue)
  /-- A `Uint8Array`. -/
  | uint8Array (bytes : List UInt8)
  /-- Any other object; it has no numeric `length`. -/
  | object (id : Nat)

/-- The method `js.Value.Type`. -/
def JsValue.type : JsValue → JsType
  | .undefined => .typeUndefined
  | .null => .typeNull
  | .boolean _ => .typeBoolean
  | .number _ => .typeNumber
  | .string _ => .typeString
  | .function _ => .typeFunction
  | .array _ => .typeObject
  | .uint8Array _ => .typeObject
  | .object _ => .typeObject

/-- The type of `v.Get("length")`, for `v` of type object. -/
def JsValue.lengthType : JsValue → JsType
  | .array _ => .typeNumber
  | .uint8Array _ => .typeNumber
  | _ => .typeUndefined

/-- The method `js.Value.Length`. -/
def JsValue.length : JsValue → Nat
  | .array elems => elems.length
  | .uint8Array bytes => bytes.length
  | _ => 0

/-- The method `js.Value.Index`. -/
def JsValue.index : JsValue → Nat → JsValue
  | .array elems, i => (elems.get? i).getD .undefined
  | .uint8Array bytes, i =>
    match bytes.get? i with
    | some b => .number (utf8 (toString b.toNat))
    | none => .undefined
  | _, _ => .undefined

/-- The method `js.Value.String`. -/
def JsValue.goString : JsValue → GoString
  | .string s => s
  | .undefined => utf8 "<undefined>"
  | .null => utf8 "<null>"
  | .boolean b => utf8 "<boolean: " ++ utf8 (if b then "true" else "false") ++ utf8 ">"
  | .number shown => utf8 "<number: " ++ shown ++ utf8 ">"
  | .function _ => utf8 "<function>"
  | .array _ => utf8 "<object>"
  | .uint8Array _ => utf8 "<object>"
  | .object _ => utf8 "<object>"

/-- The virtual file system of the bridged engine. -/
abbrev VirtualFs := List (GoString × JsValue)

/-- Whether a name exists in the virtual file system. -/
def vfsExists (fs : VirtualFs) (name : GoString) : Bool := fs.any (fun e => e.1 = name)

/-- The engine operation `FS("writeFile", name, data)`. -/
def vfsWrite (fs : VirtualFs) (name : GoString) (data : JsValue) : VirtualFs :=
  (name, data) :: fs.filter (fun e => e.1 ≠ name)

/-- The content stored under a name of the virtual file system. -/
def vfsRead (fs : VirtualFs) (name : GoString) : Option JsValue :=
  (fs.find? (fun e => e.1 = name)).map (fun e => e.2)

/-- The calls `mergeVideosGo` makes on the engine instance. -/
inductive EngineCall
  | writeFile (name : GoString)
  | setProgress (install : Bool)
  | run (args : List GoString)
  | readFile (name : GoString)
  deriving DecidableEq

/-- The reasons for which `mergeVideosGo` rejects its promise, one per
message of the source. -/
inductive Rejection
  /-- Fewer than three arguments. -/
  | arity
  /-- The message `Go: fileNames argument must be an array.`. -/
  | fileNamesNotArray
  /-- The message `Go: fileContents argument must be an array.`. -/
  | fileContentsNotArray
  /-- The message `Go: progressCallback argument must be a function.`. -/
  | callbackNotFunction
  /-- The message `Go: No files provided for merging.`. -/
  | noFiles
  /-- The message `Go: Mismatch between number of file names and file contents.`. -/
  | lengthMismatch
  /-- The message `Go: ffmpeg instance not found in JavaScript global scope.`. -/
  | engineMissing
  /-- The message `Go: Panic recovered in ffmpeg.run: ...`. -/
  | panicRecovered
  /-- The message `Go: Failed to read merged file ... from FFmpeg FS.`. -/
  | outputUnreadable
  deriving DecidableEq

/-- How one call of `mergeVideosGo` ends. -/
inductive Outcome
  /-- The promise is rejected. -/
  | rejected (why : Rejection)
  /-- The promise is resolved with the merged data. -/
  | resolved (data : JsValue)
  /-- A JavaScript exception became a Go panic outside the deferred `recover`:
  the program aborts. -/
  | crashed

/-- The behaviour of the host's engine instance `ffmpeg` during one run. The
engine's `run` only adds its output file to the virtual file system. -/
structure Bridge where
  /-- The global `ffmpeg` is defined. -/
  present : Bool
  /-- The operation `FS("writeFile", name, _)` throws. -/
  writeThrows : GoString → Bool
  /-- The operation `setProgress` throws when the callback is installed. -/
  setProgressThrows : Bool
  /-- The operation `run` throws. -/
  runThrows : Bool
  /-- What `run` leaves as `output.mp4`, if anything. -/
  produced : Option JsValue
  /-- The operation `FS("readFile", "output.mp4")` throws. -/
  readThrows : Bool

/-- The state of the engine seen from `mergeVideosGo`. -/
structure BridgeState where
  fs : VirtualFs
  calls : List EngineCall

/-- The result of one call of `mergeVideosGo`. -/
structure BridgeResult where
  outcome : Outcome
  state : BridgeState

/-- The name of the bridged manifest, `concatListFileName := "mylist.txt"`. -/
def concatListFileName : GoString := utf8 "mylist.txt"

/-- The name of the bridged output, `outputFileName := "output.mp4"`. -/
def outputFileName : GoString := utf8 "output.mp4"

/-- The slice `ffmpegArgs` of `mergeVideosGo`. -/
def ffmpegArgs : List GoString :=
  [utf8 "-f", utf8 "concat", utf8 "-safe", utf8 "0", utf8 "-i", concatListFileName,
   utf8 "-c", utf8 "copy", outputFileName]

/-- The loop `for i := 0; i < numFiles; i++` of `mergeVideosGo`: the first
argument is `numFiles - i`, the second is `i`, `builder` is the content of
`concatFileContentBuilder`. The result is `none` when a write throws. -/
def writeInputs (eng : Bridge) (fileNamesJS fileContentsJS : JsValue) :
    Nat → Nat → BridgeState → GoString → Option (BridgeState × GoString)
  | 0, _, st, builder => some (st, builder)
  | n + 1, i, st, builder =>
    let name := (fileNamesJS.index i).goString
    let data := fileContentsJS.index i
    if eng.writeThrows name then none
    else
      writeInputs eng fileNamesJS fileContentsJS n (i + 1)
        { fs := vfsWrite st.fs name data, calls := st.calls ++ [EngineCall.writeFile name] }
        (builder ++ sprintfFile name)

/-- The deferred function of the goroutine without its `recover`:
`ffmpeg.Call("setProgress", js.Null())`. -/
def clearProgress (st : BridgeState) : BridgeState :=
  { st with calls := st.calls ++ [EngineCall.setProgress false] }

/-- The statements of the goroutine from `ffmpeg.Call("run", runArgs...)` to
its end, the deferred function included. -/
def runAndReadBack (eng : Bridge) (st : BridgeState) : BridgeResult :=
  let st1 : BridgeState := { st with calls := st.calls ++ [EngineCall.run ffmpegArgs] }
  if eng.runThrows then { outcome := .rejected .panicRecovered, state := clearProgress st1 }
  else
    let st2 : BridgeState :=
      { fs := (match eng.produced with
               | some data => vfsWrite st1.fs outputFileName data
               | none => st1.fs),
        calls := st1.calls ++ [EngineCall.readFile outputFileName] }
    if eng.readThrows then { outcome := .rejected .panicRecovered, state := clearProgress st2 }
    else
      match vfsRead st2.fs outputFileName with
      | none => { outcome := .rejected .outputUnreadable, state := clearProgress st2 }
      | some .undefined => { outcome := .rejected .outputUnreadable, state := clearProgress st2 }
      | some .null => { outcome := .rejected .outputUnreadable, state := clearProgress st2 }
      | some mergedVideoData =>
        { outcome := .resolved mergedVideoData, state := clearProgress st2 }

/-- The goroutine started by the promise executor of `mergeVideosGo`. -/
def mergeGoroutine (eng : Bridge) (fileNamesJS fileContentsJS : JsValue) (numFiles : Nat)
    (st : BridgeState) : BridgeResult :=
  if !eng.present then { outcome := .rejected .engineMissing, state := st }
  else
    match writeInputs eng fileNamesJS fileContentsJS numFiles 0 st [] with
    | none => { outcome := .crashed, state := st }
    | some (st1, concatListContent) =>
      let st2 : BridgeState :=
        { st1 with calls := st1.calls ++ [EngineCall.writeFile concatListFileName] }
      if eng.writeThrows concatListFileName then { outcome := .crashed, state := st2 }
      else
        let st3 : BridgeState :=
          { fs := vfsWrite st2.fs concatListFileName (.string concatListContent),
            calls := st2.calls ++ [EngineCall.setProgress true] }
        if eng.setProgressThrows then { outcome := .crashed, state := st3 }
        else runAndReadBack eng st3

/-- The function `mergeVideosGo(this js.Value, args []js.Value) interface{}`,
with the settlement of the promise it returns. -/
def mergeVideosGo (eng : Bridge) (args : List JsValue) (st : BridgeState) : BridgeResult :=
  match args with
  | fileNamesJS :: fileContentsJS :: progressCallbackJS :: _ =>
    if fileNamesJS.type ≠ .typeObject ∨ fileNamesJS.lengthType ≠ .typeNumber then
      { outcome := .rejected .fileNamesNotArray, state := st }
    else if fileContentsJS.type ≠ .typeObject ∨ fileContentsJS.lengthType ≠ .typeNumber then
      { outcome := .rejected .fileContentsNotArray, state := st }
    else if progressCallbackJS.type ≠ .typeFunction then
      { outcome := .rejected .callbackNotFunction, state := st }
    else
      let numFiles := fileNamesJS.length
      if numFiles = 0 then { outcome := .rejected .noFiles, state := st }
      else if numFiles ≠ fileContentsJS.length then
        { outcome := .rejected .lengthMismatch, state := st }
      else mergeGoroutine eng fileNamesJS fileContentsJS numFiles st
  | _ => { outcome := .rejected .arity, state := st }

/-! ## Sample environments -/

/-- An operating system and an engine that never fail; the engine leaves the
file system as it is. -/
def noFaults : NativeFaults where
  createFails := false
  writeFails := fun _ => false
  flushFails := false
  stderrPipeFails := false
  stdoutPipeFails := false
  startFails := false
  scanFails := false
  waitFails := false
  ffmpegPath := utf8 "ffmpeg"
  engineFs := fun fs => fs

/-- No element of the list is `less` than its predecessor. -/
def sortedUnder {α : Type} (less : α → α → Bool) : List α → Bool
  | [] => true
  | [_] => true
  | a :: b :: rest => !less b a && sortedUnder less (b :: rest)

/-- A directory of 36 video files, in the order of `ioutil.ReadDir` (sorted by
name). -/
def listing36 : List FileInfo :=
  [⟨utf8 "Z0000000000000000000000000003.avi", false⟩,
   ⟨utf8 "Z000000000000000000000000004.avi", false⟩,
   ⟨utf8 "Z00000000000000000000000005.avi", false⟩,
   ⟨utf8 "Z0000000000000000000000006.avi", false⟩,
   ⟨utf8 "Z000000000000000000000007.avi", false⟩, ⟨utf8 "Z00000000000000000000008.avi", false⟩,
   ⟨utf8 "Z0000000000000000000009.avi", false⟩, ⟨utf8 "Z0000000000000000000010.avi", false⟩,
   ⟨utf8 "Z000000000000000000025.avi", false⟩, ⟨utf8 "Z0000000000000000001.avi", false⟩,
   ⟨utf8 "Z0000000000000000011.avi", false⟩, ⟨utf8 "Z000000000000000015.avi", false⟩,
   ⟨utf8 "Z00000000000000020.avi", false⟩, ⟨utf8 "Z0000000000000018.avi", false⟩,
   ⟨utf8 "Z000000000000024.avi", false⟩, ⟨utf8 "Z00000000000016.avi", false⟩,
   ⟨utf8 "Z0000000000023.avi", false⟩, ⟨utf8 "Z000000000027.avi", false⟩,
   ⟨utf8 "Z0000000002.avi", false⟩, ⟨utf8 "Z0000000012.avi", false⟩,
   ⟨utf8 "Z000000017.avi", false⟩, ⟨utf8 "Z00000019.avi", false⟩, ⟨utf8 "Z0000014.avi", false⟩,
   ⟨utf8 "Z000013.avi", false⟩, ⟨utf8 "Z00028.avi", false⟩, ⟨utf8 "Z0022.avi", false⟩,
   ⟨utf8 "Z021.avi", false⟩, ⟨utf8 "Z26.avi", false⟩, ⟨utf8 "a-1.avi", false⟩,
   ⟨utf8 "a-2.avi", false⟩, ⟨utf8 "a-3.avi", false⟩, ⟨utf8 "a-6.avi", false⟩,
   ⟨utf8 "a.avi", false⟩, ⟨utf8 "a5.avi", false⟩, ⟨utf8 "b02.avi", false⟩,
   ⟨utf8 "b1.avi", false⟩]

/-- The paths `findVideoFiles` returns for `listing36` in the directory `v`. -/
def result36 : List GoString :=
  [utf8 "v/Z0000000000000000001.avi", utf8 "v/Z0000000002.avi",
   utf8 "v/Z0000000000000000000000000003.avi", utf8 "v/Z000000000000000000000000004.avi",
   utf8 "v/Z00000000000000000000000005.avi", utf8 "v/Z0000000000000000000000006.avi",
   utf8 "v/Z000000000000000000000007.avi", utf8 "v/Z00000000000000000000008.avi",
   utf8 "v/Z0000000000000000000009.avi", utf8 "v/Z0000000000000000000010.avi",
   utf8 "v/Z0000000000000000011.avi", utf8 "v/Z0000000012.avi", utf8 "v/Z000013.avi",
   utf8 "v/Z0000014.avi", utf8 "v/Z000000000000000015.avi", utf8 "v/Z00000000000016.avi",
   utf8 "v/Z000000017.avi", utf8 "v/Z0000000000000018.avi", utf8 "v/Z00000019.avi",
   utf8 "v/Z00000000000000020.avi", utf8 "v/Z021.avi", utf8 "v/Z0022.avi",
   utf8 "v/Z0000000000023.avi", utf8 "v/Z000000000000024.avi",
   utf8 "v/Z000000000000000000025.avi", utf8 "v/Z26.avi", utf8 "v/Z000000000027.avi",
   utf8 "v/Z00028.avi", utf8 "v/a5.avi", utf8 "v/a-1.avi", utf8 "v/a-2.avi", utf8 "v/a.avi",
   utf8 "v/a-3.avi", utf8 "v/a-6.avi", utf8 "v/b1.avi", utf8 "v/b02.avi"]

/-- A directory of 37 video files, in the order of `ioutil.ReadDir` (sorted by
name). -/
def listing37 : List FileInfo :=
  [⟨utf8 "Z000000000000000000000000000003.avi", false⟩,
   ⟨utf8 "Z00000000000000000000000000004.avi", false⟩,
   ⟨utf8 "Z0000000000000000000000000005.avi", false⟩,
   ⟨utf8 "Z000000000000000000000000006.avi", false⟩,
   ⟨utf8 "Z00000000000000000000000007.avi", false⟩,
   ⟨utf8 "Z0000000000000000000000008.avi", false⟩,
   ⟨utf8 "Z000000000000000000000009.avi", false⟩,
   ⟨utf8 "Z000000000000000000000010.avi", false⟩, ⟨utf8 "Z00000000000000000000027.avi", false⟩,
   ⟨utf8 "Z000000000000000000001.avi", false⟩, ⟨utf8 "Z000000000000000000011.avi", false⟩,
   ⟨utf8 "Z00000000000000000019.avi", false⟩, ⟨utf8 "Z0000000000000000025.avi", false⟩,
   ⟨utf8 "Z000000000000000020.avi", false⟩, ⟨utf8 "Z00000000000000024.avi", false⟩,
   ⟨utf8 "Z0000000000000023.avi", false⟩, ⟨utf8 "Z000000000000030.avi", false⟩,
   ⟨utf8 "Z00000000000012.avi", false⟩, ⟨utf8 "Z000000000002.avi", false⟩,
   ⟨utf8 "Z000000000015.avi", false⟩, ⟨utf8 "Z00000000016.avi", false⟩,
   ⟨utf8 "Z0000000029.avi", false⟩, ⟨utf8 "Z000000018.avi", false⟩,
   ⟨utf8 "Z00000013.avi", false⟩, ⟨utf8 "Z0000017.avi", false⟩, ⟨utf8 "Z000014.avi", false⟩,
   ⟨utf8 "Z00022.avi", false⟩, ⟨utf8 "Z0028.avi", false⟩, ⟨utf8 "Z026.avi", false⟩,
   ⟨utf8 "Z21.avi", false⟩, ⟨utf8 "a-1.avi", false⟩, ⟨utf8 "a-2.avi", false⟩,
   ⟨utf8 "a-3.avi", false⟩, ⟨utf8 "a-5.avi", false⟩, ⟨utf8 "a-6.avi", false⟩,
   ⟨utf8 "a.avi", false⟩, ⟨utf8 "a5.avi", false⟩]

/-- The paths `findVideoFiles` returns for `listing37` in the directory `v`
on `unixHostAlt`. -/
def result37 : List GoString :=
  [utf8 "v/Z000000000000000000001.avi", utf8 "v/Z000000000002.avi",
   utf8 "v/Z000000000000000000000000000003.avi", utf8 "v/Z00000000000000000000000000004.avi",
   utf8 "v/Z0000000000000000000000000005.avi", utf8 "v/Z000000000000000000000000006.avi",
   utf8 "v/Z00000000000000000000000007.avi", utf8 "v/Z0000000000000000000000008.avi",
   utf8 "v/Z000000000000000000000009.avi", utf8 "v/Z000000000000000000000010.avi",
   utf8 "v/Z000000000000000000011.avi", utf8 "v/Z00000000000012.avi", utf8 "v/Z00000013.avi",
   utf8 "v/Z000014.avi", utf8 "v/Z000000000015.avi", utf8 "v/Z00000000016.avi",
   utf8 "v/Z0000017.avi", utf8 "v/Z000000018.avi", utf8 "v/Z00000000000000000019.avi",
   utf8 "v/Z000000000000000020.avi", utf8 "v/Z21.avi", utf8 "v/Z00022.avi",
   utf8 "v/Z0000000000000023.avi", utf8 "v/Z00000000000000024.avi",
   utf8 "v/Z0000000000000000025.avi", utf8 "v/Z026.avi", utf8 "v/Z00000000000000000000027.avi",
   utf8 "v/Z0028.avi", utf8 "v/Z0000000029.avi", utf8 "v/Z000000000000030.avi", utf8 "v/a.avi",
   utf8 "v/a5.avi", utf8 "v/a-1.avi", utf8 "v/a-6.avi", utf8 "v/a-2.avi", utf8 "v/a-3.avi",
   utf8 "v/a-5.avi"]

/-- As `noFaults`, but the engine exits with an error. -/
def engineFailure : NativeFaults := { noFaults with waitFails := true }

/-- A bridged engine that is present, never throws and produces three bytes
of output. -/
def healthyEngine : Bridge where
  present := true
  writeThrows := fun _ => false
  setProgressThrows := false
  runThrows := false
  produced := some (.uint8Array [1, 2, 3])
  readThrows := false

/-- As `healthyEngine`, but `run` throws. -/
def throwingEngine : Bridge := { healthyEngine with runThrows := true, produced := none }

/-- The empty outside world of the native tool. -/
def emptyWorld : World := { fs := [], trace := [] }

/-- A fresh engine instance: empty virtual file system, no call made. -/
def freshEngine : BridgeState := { fs := [], calls := [] }

/-- As `noFaults`, but flushing the manifest fails. -/
def flushFailure : NativeFaults := { noFaults with flushFails := true }

/-- The merge went as far as the engine's `run`: the promise was resolved, or
rejected by the deferred `recover` or for an unreadable output. -/
def Outcome.reachedEngine : Outcome → Bool
  | .resolved _ => true
  | .rejected .panicRecovered => true
  | .rejected .outputUnreadable => true
  | _ => false

/-! ## Auxiliary notions for the proofs -/

/-- The literal prefix of a string: the bytes before its first digit. -/
def litHead (a : GoString) : GoString := a.takeWhile (fun c => !isDigit c)

/-- The string from its first digit on. -/
def fromDigit (a : GoString) : GoString := a.dropWhile (fun c => !isDigit c)

/-- The first digit run of a string. -/
def firstRun (a : GoString) : GoString := (fromDigit a).takeWhile isDigit

/-- The string after its first digit run. -/
def afterRun (a : GoString) : GoString := (fromDigit a).dropWhile isDigit

/-- The string is empty or its last byte is not a digit. -/
def endsInNonDigit (p : GoString) : Bool :=
  match p.getLast? with
  | none => true
  | some c => !isDigit c

/-- The first byte of the string is a digit. -/
def startsWithDigit (s : GoString) : Bool :=
  match s.head? with
  | none => false
  | some c => isDigit c

/-- The string is a non-empty sequence of decimal digits. -/
def isDigitString (x : GoString) : Bool := !x.isEmpty && x.all isDigit

/-- The string of `k` zero digits. -/
def zeros (k : Nat) : GoString := List.replicate k 48

/-! ## Lexicographic comparison -/

theorem stringLess_irrefl (a : GoString) : stringLess a a = false := by
  induction a with
  | nil => rfl
  | cons c cs ih => simp [stringLess, ih]

theorem stringLess_asymm (a b : GoString) (h : stringLess a b = true) :
    stringLess b a = false := by
  induction a generalizing b with
  | nil =>
    cases b with
    | nil => rfl
    | cons y ys => rfl
  | cons x xs ih =>
    cases b with
    | nil => simp [stringLess] at h
    | cons y ys =>
      simp only [stringLess] at h ⊢
      by_cases h1 : x.toNat < y.toNat
      · have h2 : ¬ y.toNat < x.toNat := by omega
        simp [h1, h2]
      · by_cases h2 : y.toNat < x.toNat
        · simp [h1, h2] at h
        · simp only [h1, h2, if_false] at h ⊢
          exact ih ys h

theorem stringLess_append_left (p u v : GoString) :
    stringLess (p ++ u) (p ++ v) = stringLess u v := by
  induction p with
  | nil => rfl
  | cons c cs ih => simp [stringLess, ih]

/-! ## The first match of `\d+` -/

theorem litHead_append_fromDigit (a : GoString) : litHead a ++ fromDigit a = a :=
  List.takeWhile_append_dropWhile _ a

theorem firstRun_append_afterRun (a : GoString) : firstRun a ++ afterRun a = fromDigit a :=
  List.takeWhile_append_dropWhile _ (fromDigit a)

theorem scanDigits_open (pos s : Nat) (l : GoString) :
    ∃ tl, scanDigits pos (some s) l = (s, pos + (l.takeWhile isDigit).length) :: tl := by
  induction l generalizing pos with
  | nil => exact ⟨[], rfl⟩
  | cons c cs ih =>
    by_cases hc : isDigit c = true
    · obtain ⟨tl, htl⟩ := ih (pos + 1)
      refine ⟨tl, ?_⟩
      simp only [scanDigits, hc, if_true, List.takeWhile_cons, List.length_cons, htl]
      congr 2
      omega
    · refine ⟨scanDigits (pos + 1) none cs, ?_⟩
      simp [scanDigits, hc, List.takeWhile_cons]

theorem scanDigits_none_nil (pos : Nat) (l : GoString) (h : fromDigit l = []) :
    scanDigits pos none l = [] := by
  induction l generalizing pos with
  | nil => rfl
  | cons c cs ih =>
    by_cases hc : isDigit c = true
    · simp [fromDigit, List.dropWhile_cons, hc] at h
    · have h2 : fromDigit cs = [] := by
        simpa [fromDigit, List.dropWhile_cons, hc] using h
      simp [scanDigits, hc, ih (pos + 1) h2]

theorem scanDigits_none_cons (pos : Nat) (l : GoString) (h : fromDigit l ≠ []) :
    ∃ tl, scanDigits pos none l =
      (pos + (litHead l).length, pos + (litHead l).length + (firstRun l).length) :: tl := by
  induction l generalizing pos with
  | nil => exact absurd rfl h
  | cons c cs ih =>
    by_cases hc : isDigit c = true
    · obtain ⟨tl, htl⟩ := scanDigits_open (pos + 1) pos cs
      refine ⟨tl, ?_⟩
      simp only [scanDigits, hc, if_true, htl]
      simp [litHead, firstRun, fromDigit, List.takeWhile_cons, List.dropWhile_cons, hc]
      omega
    · have h2 : fromDigit cs ≠ [] := by
        simpa [fromDigit, List.dropWhile_cons, hc] using h
      obtain ⟨tl, htl⟩ := ih (pos + 1) h2
      refine ⟨tl, ?_⟩
      simp only [scanDigits, hc, htl]
      simp [litHead, firstRun, fromDigit, List.takeWhile_cons, List.dropWhile_cons, hc]
      omega

theorem findAllStringIndex_nil (a : GoString) (h : fromDigit a = []) :
    findAllStringIndex a = [] := scanDigits_none_nil 0 a h

theorem findAllStringIndex_cons (a : GoString) (h : fromDigit a ≠ []) :
    ∃ tl, findAllStringIndex a =
      ((litHead a).length, (litHead a).length + (firstRun a).length) :: tl := by
  obtain ⟨tl, htl⟩ := scanDigits_none_cons 0 a h
  exact ⟨tl, by simpa [findAllStringIndex] using htl⟩

theorem take_litHead (a : GoString) : a.take (litHead a).length = litHead a := by
  have h := @List.take_left _ (litHead a) (fromDigit a)
  rwa [litHead_append_fromDigit] at h

theorem drop_litHead (a : GoString) : a.drop (litHead a).length = fromDigit a := by
  have h := @List.drop_left _ (litHead a) (fromDigit a)
  rwa [litHead_append_fromDigit] at h

theorem slice_firstRun (a : GoString) :
    slice a (litHead a).length ((litHead a).length + (firstRun a).length) = firstRun a := by
  unfold slice
  rw [drop_litHead, Nat.add_sub_cancel_left]
  have h := @List.take_left _ (firstRun a) (afterRun a)
  rwa [firstRun_append_afterRun] at h

theorem drop_afterRun (a : GoString) :
    a.drop ((litHead a).length + (firstRun a).length) = afterRun a := by
  rw [← List.drop_drop, drop_litHead]
  have h := @List.drop_left _ (firstRun a) (afterRun a)
  rwa [firstRun_append_afterRun] at h

/-- One iteration of the loop of `naturalLess`, in terms of the literal
prefix, the first digit run and the remainder of both strings. -/
theorem naturalLessLoop_succ (n : Nat) (a b : GoString) :
    naturalLessLoop (n + 1) a b =
      if fromDigit a ≠ [] ∧ fromDigit b ≠ [] then
        if litHead a ≠ litHead b then stringLess (litHead a) (litHead b)
        else if atoi (firstRun a) ≠ atoi (firstRun b) then
          decide (atoi (firstRun a) < atoi (firstRun b))
        else naturalLessLoop n (afterRun a) (afterRun b)
      else stringLess a b := by
  by_cases ha : fromDigit a = []
  · simp [naturalLessLoop, findAllStringIndex_nil a ha, ha]
  · by_cases hb : fromDigit b = []
    · obtain ⟨ta, hta⟩ := findAllStringIndex_cons a ha
      simp [naturalLessLoop, findAllStringIndex_nil b hb, hb, hta]
    · obtain ⟨ta, hta⟩ := findAllStringIndex_cons a ha
      obtain ⟨tb, htb⟩ := findAllStringIndex_cons b hb
      simp only [naturalLessLoop, hta, htb, take_litHead, slice_firstRun, drop_afterRun]
      simp [ha, hb]

theorem fromDigit_head (a : GoString) :
    fromDigit a = [] ∨ ∃ c t, fromDigit a = c :: t ∧ isDigit c = true := by
  induction a with
  | nil => exact Or.inl rfl
  | cons c cs ih =>
    by_cases hc : isDigit c = true
    · exact Or.inr ⟨c, cs, by simp [fromDigit, List.dropWhile_cons, hc], hc⟩
    · have h2 : fromDigit (c :: cs) = fromDigit cs := by
        simp [fromDigit, List.dropWhile_cons, hc]
      rw [h2]
      exact ih

theorem firstRun_ne_nil (a : GoString) (h : fromDigit a ≠ []) : firstRun a ≠ [] := by
  rcases fromDigit_head a with h0 | ⟨c, t, hct, hc⟩
  · exact absurd h0 h
  · simp [firstRun, hct, List.takeWhile_cons, hc]

theorem afterRun_length_lt (a : GoString) (h : fromDigit a ≠ []) :
    (afterRun a).length < a.length := by
  have h1 := congrArg List.length (litHead_append_fromDigit a)
  have h2 := congrArg List.length (firstRun_append_afterRun a)
  have h3 : 0 < (firstRun a).length := List.length_pos.mpr (firstRun_ne_nil a h)
  simp only [List.length_append] at h1 h2
  omega

theorem afterRun_length_le (a : GoString) : (afterRun a).length ≤ a.length := by
  have h1 := congrArg List.length (litHead_append_fromDigit a)
  have h2 := congrArg List.length (firstRun_append_afterRun a)
  simp only [List.length_append] at h1 h2
  omega

/-! ## The iteration bound of `naturalLessLoop` is never reached -/

theorem naturalLessLoop_zero_eq_one (a b : GoString) (h : a.length ≤ 0) :
    naturalLessLoop 0 a b = naturalLessLoop 1 a b := by
  have ha : a = [] := List.eq_nil_of_length_eq_zero (Nat.le_zero.mp h)
  subst ha
  rw [naturalLessLoop_succ]
  simp [naturalLessLoop, fromDigit]

theorem naturalLessLoop_fuel_succ (n : Nat) (a b : GoString) (h : a.length ≤ n) :
    naturalLessLoop n a b = naturalLessLoop (n + 1) a b := by
  induction n generalizing a b with
  | zero => exact naturalLessLoop_zero_eq_one a b h
  | succ k ih =>
    rw [naturalLessLoop_succ k, naturalLessLoop_succ (k + 1)]
    by_cases hd : fromDigit a ≠ [] ∧ fromDigit b ≠ []
    · have hlt := afterRun_length_lt a hd.1
      rw [ih (afterRun a) (afterRun b) (by omega)]
    · simp only [hd, if_false]

/-- Every bound of at least `a.length` iterations gives the same result: the
loop of `naturalLess` ends by itself. -/
theorem naturalLessLoop_fuel (n : Nat) (a b : GoString) (h : a.length ≤ n) :
    naturalLessLoop n a b = naturalLess a b := by
  induction n with
  | zero =>
    have ha : a.length = 0 := Nat.le_zero.mp h
    simp [naturalLess, ha]
  | succ k ih =>
    by_cases hk : a.length ≤ k
    · rw [← naturalLessLoop_fuel_succ k a b hk]
      exact ih hk
    · have ha : a.length = k + 1 := by omega
      simp [naturalLess, ha]

/-- The loop of `naturalLess`, one iteration unfolded. -/
theorem naturalLess_step (a b : GoString) :
    naturalLess a b =
      if fromDigit a ≠ [] ∧ fromDigit b ≠ [] then
        if litHead a ≠ litHead b then stringLess (litHead a) (litHead b)
        else if atoi (firstRun a) ≠ atoi (firstRun b) then
          decide (atoi (firstRun a) < atoi (firstRun b))
        else naturalLess (afterRun a) (afterRun b)
      else stringLess a b := by
  rw [← naturalLessLoop_fuel (a.length + 1) a b (Nat.le_succ _), naturalLessLoop_succ,
    naturalLessLoop_fuel a.length (afterRun a) (afterRun b) (afterRun_length_le a)]

theorem naturalLess_irrefl (a : GoString) : naturalLess a a = false := by
  generalize hn : a.length = n
  induction n using Nat.strong_induction_on generalizing a with
  | _ n ih =>
    rw [naturalLess_step]
    by_cases hd : fromDigit a ≠ []
    · have hlt := afterRun_length_lt a hd
      simp [hd, ih (afterRun a).length (by omega) (afterRun a) rfl]
    · simp [hd, stringLess_irrefl]

theorem naturalLess_asymm (a b : GoString) (h : naturalLess a b = true) :
    naturalLess b a = false := by
  generalize hn : a.length = n
  induction n using Nat.strong_induction_on generalizing a b with
  | _ n ih =>
    rw [naturalLess_step] at h ⊢
    by_cases hd : fromDigit a ≠ [] ∧ fromDigit b ≠ []
    · have hd2 : fromDigit b ≠ [] ∧ fromDigit a ≠ [] := ⟨hd.2, hd.1⟩
      rw [if_pos hd] at h
      rw [if_pos hd2]
      by_cases hp : litHead a = litHead b
      · have hp2 : ¬ litHead b ≠ litHead a := by simp [hp]
        have hp1 : ¬ litHead a ≠ litHead b := by simp [hp]
        rw [if_neg hp1] at h
        rw [if_neg hp2]
        by_cases hv : atoi (firstRun a) = atoi (firstRun b)
        · have hv1 : ¬ atoi (firstRun a) ≠ atoi (firstRun b) := by simp [hv]
          have hv2 : ¬ atoi (firstRun b) ≠ atoi (firstRun a) := by simp [hv]
          rw [if_neg hv1] at h
          rw [if_neg hv2]
          have hlt := afterRun_length_lt a hd.1
          exact ih (afterRun a).length (by omega) (afterRun a) (afterRun b) h rfl
        · have hv1 : atoi (firstRun a) ≠ atoi (firstRun b) := hv
          have hv2 : atoi (firstRun b) ≠ atoi (firstRun a) := fun e => hv e.symm
          rw [if_pos hv1] at h
          rw [if_pos hv2]
          have hlt : atoi (firstRun a) < atoi (firstRun b) := by simpa using h
          simp only [decide_eq_false_iff_not]
          omega
      · have hp1 : litHead a ≠ litHead b := hp
        have hp2 : litHead b ≠ litHead a := fun e => hp e.symm
        rw [if_pos hp1] at h
        rw [if_pos hp2]
        exact stringLess_asymm _ _ h
    · have hd2 : ¬ (fromDigit b ≠ [] ∧ fromDigit a ≠ []) := fun e => hd ⟨e.2, e.1⟩
      rw [if_neg hd] at h
      rw [if_neg hd2]
      exact stringLess_asymm _ _ h

/-! ## Digit runs inside concatenations -/

theorem dropWhile_append_of_ne_nil {q : UInt8 → Bool} (l1 l2 : GoString)
    (h : l1.dropWhile q ≠ []) : (l1 ++ l2).dropWhile q = l1.dropWhile q ++ l2 := by
  induction l1 with
  | nil => exact absurd rfl h
  | cons c cs ih =>
    by_cases hc : q c = true
    · simp only [List.cons_append, List.dropWhile_cons, hc, if_true] at h ⊢
      exact ih h
    · simp [List.dropWhile_cons, hc]

theorem takeWhile_append_of_ne_nil {q : UInt8 → Bool} (l1 l2 : GoString)
    (h : l1.dropWhile q ≠ []) : (l1 ++ l2).takeWhile q = l1.takeWhile q := by
  induction l1 with
  | nil => exact absurd rfl h
  | cons c cs ih =>
    by_cases hc : q c = true
    · simp only [List.cons_append, List.dropWhile_cons, List.takeWhile_cons, hc, if_true] at h ⊢
      rw [ih h]
    · simp [List.takeWhile_cons, hc]

theorem dropWhile_append_of_nil {q : UInt8 → Bool} (l1 l2 : GoString)
    (h : l1.dropWhile q = []) : (l1 ++ l2).dropWhile q = l2.dropWhile q := by
  induction l1 with
  | nil => rfl
  | cons c cs ih =>
    by_cases hc : q c = true
    · simp only [List.cons_append, List.dropWhile_cons, hc, if_true] at h ⊢
      exact ih h
    · simp [List.dropWhile_cons, hc] at h

theorem takeWhile_append_of_nil {q : UInt8 → Bool} (l1 l2 : GoString)
    (h : l1.dropWhile q = []) : (l1 ++ l2).takeWhile q = l1 ++ l2.takeWhile q := by
  induction l1 with
  | nil => rfl
  | cons c cs ih =>
    by_cases hc : q c = true
    · simp only [List.cons_append, List.dropWhile_cons, List.takeWhile_cons, hc, if_true] at h ⊢
      rw [ih h]
    · simp [List.dropWhile_cons, hc] at h

theorem dropWhile_isDigit_of_all (x : GoString) (h : x.all isDigit = true) :
    x.dropWhile isDigit = [] := by
  induction x with
  | nil => rfl
  | cons c cs ih =>
    simp only [List.all_cons, Bool.and_eq_true] at h
    simp [List.dropWhile_cons, h.1, ih h.2]

/-- A string that opens with a digit string `x`: its first digit run is `x`
followed by the digits that open `s`. -/
theorem digitString_append (x s : GoString) (hx : isDigitString x = true) :
    fromDigit (x ++ s) ≠ [] ∧ litHead (x ++ s) = [] ∧
      firstRun (x ++ s) = x ++ s.takeWhile isDigit ∧
      afterRun (x ++ s) = s.dropWhile isDigit := by
  cases x with
  | nil => simp [isDigitString] at hx
  | cons c cs =>
    simp only [isDigitString, List.isEmpty_cons, Bool.not_false, Bool.true_and] at hx
    have hall := hx
    simp only [List.all_cons, Bool.and_eq_true] at hx
    have hfd : fromDigit (c :: cs ++ s) = c :: cs ++ s := by
      simp [fromDigit, List.dropWhile_cons, hx.1]
    refine ⟨by rw [hfd]; simp, by simp [litHead, List.takeWhile_cons, hx.1], ?_, ?_⟩
    · rw [firstRun, hfd]
      exact takeWhile_append_of_nil _ _ (dropWhile_isDigit_of_all _ hall)
    · rw [afterRun, hfd]
      exact dropWhile_append_of_nil _ _ (dropWhile_isDigit_of_all _ hall)

theorem takeWhile_isDigit_of_not_startsWithDigit (s : GoString)
    (hs : startsWithDigit s = false) : s.takeWhile isDigit = [] ∧ s.dropWhile isDigit = s := by
  cases s with
  | nil => exact ⟨rfl, rfl⟩
  | cons c cs =>
    have hc : isDigit c = false := by simpa [startsWithDigit] using hs
    simp [List.takeWhile_cons, List.dropWhile_cons, hc]

/-- A prefix without digits only lengthens the literal prefix. -/
theorem append_of_no_digit (p x : GoString) (h : fromDigit p = []) :
    litHead (p ++ x) = p ++ litHead x ∧ fromDigit (p ++ x) = fromDigit x ∧
      firstRun (p ++ x) = firstRun x ∧ afterRun (p ++ x) = afterRun x := by
  have h1 : fromDigit (p ++ x) = fromDigit x := dropWhile_append_of_nil p x h
  refine ⟨takeWhile_append_of_nil p x h, h1, ?_, ?_⟩
  · rw [firstRun, h1, firstRun]
  · rw [afterRun, h1, afterRun]

/-- A prefix whose first digit run ends inside it keeps that run. -/
theorem append_of_digit (p x : GoString) (h : fromDigit p ≠ []) (h2 : afterRun p ≠ []) :
    litHead (p ++ x) = litHead p ∧ fromDigit (p ++ x) ≠ [] ∧
      firstRun (p ++ x) = firstRun p ∧ afterRun (p ++ x) = afterRun p ++ x := by
  have h1 : fromDigit (p ++ x) = fromDigit p ++ x := dropWhile_append_of_ne_nil p x h
  refine ⟨takeWhile_append_of_ne_nil p x h, ?_, ?_, ?_⟩
  · rw [h1]
    intro e
    exact h (List.append_eq_nil.mp e).1
  · rw [firstRun, h1]
    exact takeWhile_append_of_ne_nil _ x h2
  · rw [afterRun, h1]
    exact dropWhile_append_of_ne_nil _ x h2

theorem afterRun_of_endsInNonDigit (p : GoString) (hp : endsInNonDigit p = true)
    (h : fromDigit p ≠ []) : afterRun p ≠ [] ∧ endsInNonDigit (afterRun p) = true := by
  have hsplit : p = (litHead p ++ firstRun p) ++ afterRun p := by
    rw [List.append_assoc, firstRun_append_afterRun, litHead_append_fromDigit]
  by_cases h2 : afterRun p = []
  · exfalso
    have hrun := firstRun_ne_nil p h
    have hlast : p.getLast? = (firstRun p).getLast? := by
      conv_lhs => rw [hsplit, h2, List.append_nil]
      exact List.getLast?_append_of_ne_nil _ hrun
    obtain ⟨c, hc⟩ : ∃ c, (firstRun p).getLast? = some c := by
      cases hl : (firstRun p).getLast? with
      | none => exact absurd (List.getLast?_eq_none_iff.mp hl) hrun
      | some c => exact ⟨c, rfl⟩
    have hmem : c ∈ firstRun p := List.mem_of_getLast?_eq_some hc
    have hdig : isDigit c = true := List.mem_takeWhile_imp hmem
    rw [endsInNonDigit, hlast, hc] at hp
    simp [hdig] at hp
  · refine ⟨h2, ?_⟩
    have hlast : p.getLast? = (afterRun p).getLast? := by
      conv_lhs => rw [hsplit]
      exact List.getLast?_append_of_ne_nil _ h2
    rw [endsInNonDigit, ← hlast]
    exact hp

/-- A common prefix that does not end in a digit has no influence on
`naturalLess`. -/
theorem naturalLess_append_left (p x y : GoString) (hp : endsInNonDigit p = true) :
    naturalLess (p ++ x) (p ++ y) = naturalLess x y := by
  generalize hn : p.length = n
  induction n using Nat.strong_induction_on generalizing p with
  | _ n ih =>
    by_cases h : fromDigit p = []
    · obtain ⟨a1, a2, a3, a4⟩ := append_of_no_digit p x h
      obtain ⟨b1, b2, b3, b4⟩ := append_of_no_digit p y h
      rw [naturalLess_step (p ++ x), naturalLess_step x, a1, a2, a3, a4, b1, b2, b3, b4]
      simp [stringLess_append_left]
    · obtain ⟨h2, h3⟩ := afterRun_of_endsInNonDigit p hp h
      obtain ⟨a1, a2, a3, a4⟩ := append_of_digit p x h h2
      obtain ⟨b1, b2, b3, b4⟩ := append_of_digit p y h h2
      rw [naturalLess_step (p ++ x), a1, a3, a4, b1, b3, b4]
      have hlt := afterRun_length_lt p h
      simp only [a2, b2, ne_eq, not_false_eq_true, and_self, if_true, not_true_eq_false, if_false]
      exact ih (afterRun p).length (by omega) (afterRun p) h3 rfl

/-! ## `strconv.Atoi` on digit runs -/

theorem atoi_digitString (w : GoString) (hw : isDigitString w = true) :
    atoi w = ((min (digitsValue w) maxInt : Nat) : Int) := by
  have h1 : w ≠ [] ∧ w.all isDigit = true := by
    cases w with
    | nil => simp [isDigitString] at hw
    | cons c cs => exact ⟨by simp, by simpa [isDigitString] using hw⟩
  rw [atoi, if_pos h1]
  by_cases h2 : digitsValue w ≤ maxInt
  · rw [if_pos h2, Nat.min_eq_left h2]
  · rw [if_neg h2, Nat.min_eq_right (by omega)]

theorem isDigitString_append_takeWhile (x s : GoString) (hx : isDigitString x = true) :
    isDigitString (x ++ s.takeWhile isDigit) = true := by
  have ht : (s.takeWhile isDigit).all isDigit = true := by
    rw [List.all_eq_true]
    intro c hc
    exact List.mem_takeWhile_imp hc
  cases x with
  | nil => simp [isDigitString] at hx
  | cons c cs =>
    have hall : (c :: cs).all isDigit = true := by simpa [isDigitString] using hx
    have hall2 : ((c :: cs) ++ s.takeWhile isDigit).all isDigit = true := by
      rw [List.all_append, hall, ht]
      rfl
    simpa [isDigitString] using hall2

theorem digitsValue_zeros_append (k : Nat) (w : GoString) :
    digitsValue (zeros k ++ w) = digitsValue w := by
  have h0 : ∀ k, List.foldl (fun acc (c : UInt8) => acc * 10 + (c.toNat - 48)) 0 (zeros k) = 0 := by
    intro k
    induction k with
    | zero => rfl
    | succ j ih =>
      rw [zeros, List.replicate_succ, List.foldl_cons]
      exact ih
  rw [digitsValue, List.foldl_append, h0, digitsValue]

theorem isDigitString_zeros_append (k : Nat) (w : GoString) (hw : isDigitString w = true) :
    isDigitString (zeros k ++ w) = true := by
  cases w with
  | nil => simp [isDigitString] at hw
  | cons c cs =>
    simp only [isDigitString, List.isEmpty_cons, Bool.not_false, Bool.true_and] at hw
    have hz : (zeros k).all isDigit = true := by
      simp only [List.all_eq_true, zeros]
      intro c hc
      rw [(List.mem_replicate.mp hc).2]
      decide
    simp [isDigitString, List.all_append, hz, hw]

/-- Two strings that open with digit strings are compared on these runs
first. -/
theorem naturalLess_digitStrings (x y s t : GoString) (hx : isDigitString x = true)
    (hy : isDigitString y = true) :
    naturalLess (x ++ s) (y ++ t) =
      if atoi (x ++ s.takeWhile isDigit) ≠ atoi (y ++ t.takeWhile isDigit) then
        decide (atoi (x ++ s.takeWhile isDigit) < atoi (y ++ t.takeWhile isDigit))
      else naturalLess (s.dropWhile isDigit) (t.dropWhile isDigit) := by
  obtain ⟨a1, a2, a3, a4⟩ := digitString_append x s hx
  obtain ⟨b1, b2, b3, b4⟩ := digitString_append y t hy
  rw [naturalLess_step, a2, a3, a4, b2, b3, b4]
  simp [a1, b1]

/-! ## The natural comparator: claims C1, C2, C9 -/

/-- Claim C1, as far as it holds: for a prefix `p` that is empty or ends in a
non-digit, a tail `s` that does not start with a digit, and digit strings
`x`, `y` with `val x < val y` where `val x` is below the largest `int`
(`2^63 - 1`), `naturalLess` puts `p ++ x ++ s` before `p ++ y ++ s` and not
the other way round. -/
theorem naturalLess_digit_run_magnitude (p s x y : GoString)
    (hp : endsInNonDigit p = true) (hs : startsWithDigit s = false)
    (hx : isDigitString x = true) (hy : isDigitString y = true)
    (hlt : digitsValue x < digitsValue y) (hfit : digitsValue x < maxInt) :
    naturalLess (p ++ x ++ s) (p ++ y ++ s) = true ∧
      naturalLess (p ++ y ++ s) (p ++ x ++ s) = false := by
  obtain ⟨s1, s2⟩ := takeWhile_isDigit_of_not_startsWithDigit s hs
  have hax : atoi x = ((min (digitsValue x) maxInt : Nat) : Int) := atoi_digitString x hx
  have hay : atoi y = ((min (digitsValue y) maxInt : Nat) : Int) := atoi_digitString y hy
  have hlt2 : atoi x < atoi y := by
    rw [hax, hay]
    have : min (digitsValue x) maxInt < min (digitsValue y) maxInt := by
      rw [Nat.min_eq_left (Nat.le_of_lt hfit)]
      exact lt_min hlt hfit
    exact_mod_cast this
  have hne : atoi x ≠ atoi y := ne_of_lt hlt2
  have hne2 : atoi y ≠ atoi x := fun e => hne e.symm
  have hnlt : ¬ atoi y < atoi x := not_lt.mpr (le_of_lt hlt2)
  rw [List.append_assoc, List.append_assoc, naturalLess_append_left p _ _ hp,
    naturalLess_append_left p _ _ hp, naturalLess_digitStrings x y s s hx hy,
    naturalLess_digitStrings y x s s hy hx, s1, List.append_nil, List.append_nil]
  simp [hne, hne2, hlt2, hnlt]

/-- Witness for claim C1 within its range: `clip2.mp4` comes before
`clip10.mp4`. -/
theorem naturalLess_digit_run_magnitude_witness :
    naturalLess (utf8 "clip" ++ utf8 "2" ++ utf8 ".mp4") (utf8 "clip" ++ utf8 "10" ++ utf8 ".mp4")
        = true ∧
      naturalLess (utf8 "clip" ++ utf8 "10" ++ utf8 ".mp4")
        (utf8 "clip" ++ utf8 "2" ++ utf8 ".mp4") = false :=
  naturalLess_digit_run_magnitude (utf8 "clip") (utf8 ".mp4") (utf8 "2") (utf8 "10")
    (by decide) (by decide) (by decide) (by decide) (by decide) (by decide)

/-- Claim C1 fails for digit runs that do not fit an `int`: the prefix
`clip` ends in a non-digit, the tail `.mp4` does not start with a digit,
`9223372036854775807 < 9223372036854775808`, and still `naturalLess` does not
put the first name before the second. -/
theorem naturalLess_digit_run_overflow :
    endsInNonDigit (utf8 "clip") = true ∧ startsWithDigit (utf8 ".mp4") = false ∧
      isDigitString (utf8 "9223372036854775807") = true ∧
      isDigitString (utf8 "9223372036854775808") = true ∧
      digitsValue (utf8 "9223372036854775807") < digitsValue (utf8 "9223372036854775808") ∧
      naturalLess (utf8 "clip" ++ utf8 "9223372036854775807" ++ utf8 ".mp4")
        (utf8 "clip" ++ utf8 "9223372036854775808" ++ utf8 ".mp4") = false := by
  decide

/-- Claim C2: leading zeros do not change the ordering. For a prefix `p` that
is empty or ends in a non-digit, a digit string `d`, any number `k` of zeros
and any tail `s`, `naturalLess` holds in neither direction between
`p ++ 0^k ++ d ++ s` and `p ++ d ++ s`. -/
theorem naturalLess_leading_zeros (p d s : GoString) (k : Nat)
    (hp : endsInNonDigit p = true) (hd : isDigitString d = true) :
    naturalLess (p ++ zeros k ++ d ++ s) (p ++ d ++ s) = false ∧
      naturalLess (p ++ d ++ s) (p ++ zeros k ++ d ++ s) = false := by
  have hz : isDigitString (zeros k ++ d) = true := isDigitString_zeros_append k d hd
  have hv : atoi (zeros k ++ d ++ s.takeWhile isDigit) = atoi (d ++ s.takeWhile isDigit) := by
    rw [atoi_digitString _ (isDigitString_append_takeWhile _ s hz),
      atoi_digitString _ (isDigitString_append_takeWhile _ s hd), List.append_assoc,
      digitsValue_zeros_append]
  have e1 : p ++ zeros k ++ d ++ s = p ++ ((zeros k ++ d) ++ s) := by
    simp only [List.append_assoc]
  have e2 : p ++ d ++ s = p ++ (d ++ s) := by simp only [List.append_assoc]
  rw [e1, e2, naturalLess_append_left p _ _ hp, naturalLess_append_left p _ _ hp,
    naturalLess_digitStrings _ _ s s hz hd, naturalLess_digitStrings _ _ s s hd hz, hv]
  simp [naturalLess_irrefl]

/-- Witness for claim C2: `f007.mp4` and `f7.mp4`. -/
theorem naturalLess_leading_zeros_witness :
    naturalLess (utf8 "f" ++ zeros 2 ++ utf8 "7" ++ utf8 ".mp4")
        (utf8 "f" ++ utf8 "7" ++ utf8 ".mp4") = false ∧
      naturalLess (utf8 "f" ++ utf8 "7" ++ utf8 ".mp4")
        (utf8 "f" ++ zeros 2 ++ utf8 "7" ++ utf8 ".mp4") = false :=
  naturalLess_leading_zeros (utf8 "f") (utf8 "7") (utf8 ".mp4") 2 (by decide) (by decide)

/-- Claim C9 fails: `naturalLess` is not transitive. The three names
`a1.avi`, `a-1.avi`, `a.avi` all pass `isVideoFile`, and `naturalLess` puts
`a1.avi` before `a-1.avi`, `a-1.avi` before `a.avi`, and `a.avi` before
`a1.avi`. -/
theorem naturalLess_not_transitive :
    isVideoFile unixHost (utf8 "a1.avi") = true ∧ isVideoFile unixHost (utf8 "a-1.avi") = true ∧
      isVideoFile unixHost (utf8 "a.avi") = true ∧
      naturalLess (utf8 "a1.avi") (utf8 "a-1.avi") = true ∧
      naturalLess (utf8 "a-1.avi") (utf8 "a.avi") = true ∧
      naturalLess (utf8 "a1.avi") (utf8 "a.avi") = false ∧
      naturalLess (utf8 "a.avi") (utf8 "a1.avi") = true := by
  decide

/-! ## `isVideoFile`: claim C3 -/

theorem count_one_split (n : GoString) (h : stringsCount n period = 1) :
    ∃ pre suf, n = pre ++ period :: suf ∧ period ∉ suf ∧
      n.dropWhile (fun c => c != period) = period :: suf := by
  induction n with
  | nil => simp [stringsCount] at h
  | cons c cs ih =>
    by_cases hc : c = period
    · subst hc
      have h0 : cs.count period = 0 := by
        simpa [stringsCount, List.count_cons] using h
      exact ⟨[], cs, rfl, List.count_eq_zero.mp h0, by simp [List.dropWhile_cons]⟩
    · have h1 : stringsCount cs period = 1 := by
        have hc2 : ¬ (c == period) = true := by simpa using hc
        simpa [stringsCount, List.count_cons, hc2] using h
      obtain ⟨pre, suf, e, hs, hd⟩ := ih h1
      refine ⟨c :: pre, suf, by rw [e]; rfl, hs, ?_⟩
      have hc3 : (c != period) = true := by simpa using hc
      rw [List.dropWhile_cons, if_pos hc3]
      exact hd

theorem extLoop_found (h : Host) (pre suf : GoString) (hp : h.isPathSeparator period = false)
    (hsep : ∀ c ∈ suf, h.isPathSeparator c = false) (hs : period ∉ suf) (k : Nat)
    (hk : k ≤ suf.length) :
    extLoop h (pre ++ period :: suf) (pre.length + 1 + k) = period :: suf := by
  induction k with
  | zero =>
    have hg : (pre ++ period :: suf).get? pre.length = some period := by
      rw [List.get?_eq_getElem?, List.getElem?_append_right (Nat.le_refl _)]
      simp
    rw [Nat.add_zero, extLoop, hg]
    have hd : (pre ++ period :: suf).drop pre.length = period :: suf :=
      @List.drop_left _ pre (period :: suf)
    simp [hp, hd]
  | succ j ih =>
    have hj : j < suf.length := hk
    have hg : (pre ++ period :: suf).get? (pre.length + 1 + j) = some (suf.get ⟨j, hj⟩) := by
      have e : pre.length + 1 + j = (pre ++ [period]).length + j := by simp
      have e2 : pre ++ period :: suf = (pre ++ [period]) ++ suf := by simp
      rw [e, e2, List.get?_eq_getElem?, List.getElem?_append_right (Nat.le_add_right _ _)]
      simp [hj]
    have hmem : suf.get ⟨j, hj⟩ ∈ suf := List.get_mem suf j hj
    have hne : suf.get ⟨j, hj⟩ ≠ period := fun e => hs (e ▸ hmem)
    have e3 : pre.length + 1 + (j + 1) = (pre.length + 1 + j) + 1 := by omega
    rw [e3, extLoop, hg]
    simp only [hsep _ hmem, hne, if_false, Bool.false_eq_true]
    exact ih (Nat.le_of_lt hj)

theorem filepathExt_of_one_period (h : Host) (n : GoString)
    (hsep : ∀ c ∈ n, h.isPathSeparator c = false) (hc : stringsCount n period = 1) :
    filepathExt h n = n.dropWhile (fun c => c != period) := by
  obtain ⟨pre, suf, e, hs, hd⟩ := count_one_split n hc
  rw [hd]
  subst e
  have hp : h.isPathSeparator period = false := hsep period (by simp)
  have hsuf : ∀ c ∈ suf, h.isPathSeparator c = false := fun c hc => hsep c (by simp [hc])
  have hlen : (pre ++ period :: suf).length = pre.length + 1 + suf.length := by
    simp
    omega
  rw [filepathExt, hlen]
  exact extLoop_found h pre suf hp hsuf hs suf.length (Nat.le_refl _)

/-- Claim C3: for a file name `n` without path separator, `isVideoFile n`
holds exactly when `n` has exactly one period and the part of `n` from that
period on, lowercased, is one of the six supported extensions. Names with two
or more periods and names without period are rejected. -/
theorem isVideoFile_iff (h : Host) (n : GoString)
    (hsep : ∀ c ∈ n, h.isPathSeparator c = false) :
    (isVideoFile h n = true ↔
      stringsCount n period = 1 ∧
        h.toLower (n.dropWhile (fun c => c != period)) ∈
          [utf8 ".mp4", utf8 ".avi", utf8 ".mov", utf8 ".mkv", utf8 ".flv", utf8 ".wmv"]) ∧
      (2 ≤ stringsCount n period → isVideoFile h n = false) ∧
      (stringsCount n period = 0 → isVideoFile h n = false) := by
  refine ⟨?_, ?_, ?_⟩
  · by_cases hc : stringsCount n period = 1
    · rw [isVideoFile, if_neg (by simp [hc]), filepathExt_of_one_period h n hsep hc]
      simp [hc, videoExtensions]
    · simp [isVideoFile, hc]
  · intro h2
    have hc : stringsCount n period ≠ 1 := by omega
    simp [isVideoFile, hc]
  · intro h0
    have hc : stringsCount n period ≠ 1 := by omega
    simp [isVideoFile, hc]

/-- Witness for claim C3: `a.b.mp4` has two periods and is rejected,
`clip.MP4` is accepted. -/
theorem isVideoFile_iff_witness :
    isVideoFile unixHost (utf8 "a.b.mp4") = false ∧ isVideoFile unixHost (utf8 "clip.MP4") = true :=
  ⟨(isVideoFile_iff unixHost (utf8 "a.b.mp4") (by decide)).2.1 (by decide),
    (isVideoFile_iff unixHost (utf8 "clip.MP4") (by decide)).1.mpr (by decide)⟩

/-! ## `sort.Sort` consults the elements through `Less` only -/

theorem lessAt_map {α β : Type} (f : α → β) (less : α → α → Bool) (less2 : β → β → Bool)
    (hf : ∀ a b, less2 (f a) (f b) = less a b) (data : List α) (i j : Nat) :
    lessAt less2 (data.map f) i j = lessAt less data i j := by
  unfold lessAt
  rw [List.get?_eq_getElem?, List.get?_eq_getElem?, List.get?_eq_getElem?, List.get?_eq_getElem?,
    List.getElem?_map, List.getElem?_map]
  cases data[i]? <;> cases data[j]? <;> simp [hf]

theorem swapAt_map {α β : Type} (f : α → β) (data : List α) (i j : Nat) :
    swapAt (data.map f) i j = (swapAt data i j).map f := by
  unfold swapAt
  rw [List.get?_eq_getElem?, List.get?_eq_getElem?, List.get?_eq_getElem?, List.get?_eq_getElem?,
    List.getElem?_map, List.getElem?_map]
  cases data[i]? <;> cases data[j]? <;> simp [List.map_set]

theorem insertionInner_map {α β : Type} (f : α → β) (less : α → α → Bool)
    (less2 : β → β → Bool) (hf : ∀ a b, less2 (f a) (f b) = less a b) (a j : Nat)
    (data : List α) :
    insertionInner less2 a j (data.map f) = (insertionInner less a j data).map f := by
  induction j generalizing data with
  | zero => rfl
  | succ j ih =>
    simp only [insertionInner, lessAt_map f less less2 hf, swapAt_map, ih]
    split <;> rfl

theorem insertionOuter_map {α β : Type} (f : α → β) (less : α → α → Bool)
    (less2 : β → β → Bool) (hf : ∀ a b, less2 (f a) (f b) = less a b) (a n i : Nat)
    (data : List α) :
    insertionOuter less2 a n i (data.map f) = (insertionOuter less a n i data).map f := by
  induction n generalizing i data with
  | zero => rfl
  | succ n ih => simp only [insertionOuter, insertionInner_map f less less2 hf, ih]

theorem insertionSort_map {α β : Type} (f : α → β) (less : α → α → Bool)
    (less2 : β → β → Bool) (hf : ∀ a b, less2 (f a) (f b) = less a b) (data : List α)
    (a b : Nat) :
    insertionSort less2 (data.map f) a b = (insertionSort less data a b).map f :=
  insertionOuter_map f less less2 hf a _ _ data

theorem siftDown_map {α β : Type} (f : α → β) (less : α → α → Bool)
    (less2 : β → β → Bool) (hf : ∀ a b, less2 (f a) (f b) = less a b) (hi first fuel root : Nat)
    (data : List α) :
    siftDown less2 hi first fuel root (data.map f) =
      (siftDown less hi first fuel root data).map f := by
  induction fuel generalizing root data with
  | zero => rfl
  | succ fuel ih =>
    simp only [siftDown, lessAt_map f less less2 hf, swapAt_map, ih]
    repeat (first | rfl | split)

theorem heapBuild_map {α β : Type} (f : α → β) (less : α → α → Bool)
    (less2 : β → β → Bool) (hf : ∀ a b, less2 (f a) (f b) = less a b) (hi first i : Nat)
    (data : List α) :
    heapBuild less2 hi first i (data.map f) = (heapBuild less hi first i data).map f := by
  induction i generalizing data with
  | zero => rfl
  | succ i ih => simp only [heapBuild, siftDown_map f less less2 hf, ih]

theorem heapPop_map {α β : Type} (f : α → β) (less : α → α → Bool)
    (less2 : β → β → Bool) (hf : ∀ a b, less2 (f a) (f b) = less a b) (first i : Nat)
    (data : List α) :
    heapPop less2 first i (data.map f) = (heapPop less first i data).map f := by
  induction i generalizing data with
  | zero => rfl
  | succ i ih => simp only [heapPop, swapAt_map, siftDown_map f less less2 hf, ih]

theorem heapSort_map {α β : Type} (f : α → β) (less : α → α → Bool)
    (less2 : β → β → Bool) (hf : ∀ a b, less2 (f a) (f b) = less a b) (data : List α)
    (a b : Nat) :
    heapSort less2 (data.map f) a b = (heapSort less data a b).map f := by
  simp only [heapSort, heapBuild_map f less less2 hf, heapPop_map f less less2 hf]

theorem partitionLoop_map {α β : Type} (f : α → β) (less : α → α → Bool)
    (less2 : β → β → Bool) (hf : ∀ a b, less2 (f a) (f b) = less a b) (a fuel i j : Nat)
    (data : List α) :
    partitionLoop less2 a fuel i j (data.map f) =
      ((partitionLoop less a fuel i j data).1.map f, (partitionLoop less a fuel i j data).2) := by
  induction fuel generalizing i j data with
  | zero => rfl
  | succ fuel ih =>
    simp only [partitionLoop, lessAt_map f less less2 hf, swapAt_map, ih]
    split <;> rfl

theorem partition_map {α β : Type} (f : α → β) (less : α → α → Bool)
    (less2 : β → β → Bool) (hf : ∀ a b, less2 (f a) (f b) = less a b) (data : List α)
    (a b pivot : Nat) :
    partition less2 (data.map f) a b pivot =
      ((partition less data a b pivot).1.map f, (partition less data a b pivot).2) := by
  simp only [partition, lessAt_map f less less2 hf, swapAt_map,
    partitionLoop_map f less less2 hf]
  split <;> rfl

theorem partitionEqualLoop_map {α β : Type} (f : α → β) (less : α → α → Bool)
    (less2 : β → β → Bool) (hf : ∀ a b, less2 (f a) (f b) = less a b) (a fuel i j : Nat)
    (data : List α) :
    partitionEqualLoop less2 a fuel i j (data.map f) =
      ((partitionEqualLoop less a fuel i j data).1.map f,
        (partitionEqualLoop less a fuel i j data).2) := by
  induction fuel generalizing i j data with
  | zero => rfl
  | succ fuel ih =>
    simp only [partitionEqualLoop, lessAt_map f less less2 hf, swapAt_map, ih]
    split <;> rfl

theorem partitionEqual_map {α β : Type} (f : α → β) (less : α → α → Bool)
    (less2 : β → β → Bool) (hf : ∀ a b, less2 (f a) (f b) = less a b) (data : List α)
    (a b pivot : Nat) :
    partitionEqual less2 (data.map f) a b pivot =
      ((partitionEqual less data a b pivot).1.map f, (partitionEqual less data a b pivot).2) := by
  simp only [partitionEqual, swapAt_map, partitionEqualLoop_map f less less2 hf]

theorem shiftSmaller_map {α β : Type} (f : α → β) (less : α → α → Bool)
    (less2 : β → β → Bool) (hf : ∀ a b, less2 (f a) (f b) = less a b) (j : Nat)
    (data : List α) :
    shiftSmaller less2 j (data.map f) = (shiftSmaller less j data).map f := by
  induction j generalizing data with
  | zero => rfl
  | succ j ih =>
    simp only [shiftSmaller, lessAt_map f less less2 hf, swapAt_map, ih]
    split <;> rfl

theorem shiftGreater_map {α β : Type} (f : α → β) (less : α → α → Bool)
    (less2 : β → β → Bool) (hf : ∀ a b, less2 (f a) (f b) = less a b) (n j : Nat)
    (data : List α) :
    shiftGreater less2 n j (data.map f) = (shiftGreater less n j data).map f := by
  induction n generalizing j data with
  | zero => rfl
  | succ n ih =>
    simp only [shiftGreater, lessAt_map f less less2 hf, swapAt_map, ih]
    split <;> rfl

theorem ite_map {α β : Type} (f : α → β) (c : Prop) [Decidable c] (x y : List α) :
    (if c then x.map f else y.map f) = (if c then x else y).map f := by
  split <;> rfl

theorem partialInsertionSteps_map {α β : Type} (f : α → β) (less : α → α → Bool)
    (less2 : β → β → Bool) (hf : ∀ a b, less2 (f a) (f b) = less a b) (a b steps i : Nat)
    (data : List α) :
    partialInsertionSteps less2 a b steps i (data.map f) =
      ((partialInsertionSteps less a b steps i data).1.map f,
        (partialInsertionSteps less a b steps i data).2) := by
  induction steps generalizing i data with
  | zero => rfl
  | succ steps ih =>
    simp only [partialInsertionSteps, lessAt_map f less less2 hf, swapAt_map,
      shiftSmaller_map f less less2 hf, shiftGreater_map f less less2 hf, ite_map, ih]
    repeat (first | rfl | split)

theorem partialInsertionSort_map {α β : Type} (f : α → β) (less : α → α → Bool)
    (less2 : β → β → Bool) (hf : ∀ a b, less2 (f a) (f b) = less a b) (data : List α)
    (a b : Nat) :
    partialInsertionSort less2 (data.map f) a b =
      ((partialInsertionSort less data a b).1.map f, (partialInsertionSort less data a b).2) :=
  partialInsertionSteps_map f less less2 hf a b 5 (a + 1) data

theorem breakPatterns_map {α β : Type} (f : α → β) (next : Nat → Nat) (data : List α)
    (a b : Nat) :
    breakPatterns next (data.map f) a b = (breakPatterns next data a b).map f := by
  simp only [breakPatterns, swapAt_map]
  split <;> rfl

theorem choosePivot_map {α β : Type} (f : α → β) (less : α → α → Bool)
    (less2 : β → β → Bool) (hf : ∀ a b, less2 (f a) (f b) = less a b) (data : List α)
    (a b : Nat) :
    choosePivot less2 (data.map f) a b = choosePivot less data a b := by
  simp only [choosePivot, medianAdjacent, median, order2, lessAt_map f less less2 hf]

theorem reverseLoop_map {α β : Type} (f : α → β) (n i j : Nat) (data : List α) :
    reverseLoop n i j (data.map f) = (reverseLoop n i j data).map f := by
  induction n generalizing i j data with
  | zero => rfl
  | succ n ih =>
    simp only [reverseLoop, swapAt_map, ih]
    split <;> rfl

theorem reverseRange_map {α β : Type} (f : α → β) (data : List α) (a b : Nat) :
    reverseRange (data.map f) a b = (reverseRange data a b).map f :=
  reverseLoop_map f _ _ _ data

theorem pdqsortPrepare_map {α β : Type} (f : α → β) (next : Nat → Nat) (less : α → α → Bool)
    (less2 : β → β → Bool) (hf : ∀ a b, less2 (f a) (f b) = less a b) (data : List α)
    (a b limit : Nat) (wasBalanced wasPartitioned : Bool) :
    pdqsortPrepare next less2 (data.map f) a b limit wasBalanced wasPartitioned =
      ((pdqsortPrepare next less data a b limit wasBalanced wasPartitioned).1.map f,
        (pdqsortPrepare next less data a b limit wasBalanced wasPartitioned).2) := by
  have e : ∀ (c : Prop) [Decidable c] (x : List α × Bool) (y : List α),
      (if c then (x.1.map f, x.2) else (y.map f, false)) =
        ((if c then x else (y, false)).1.map f, (if c then x else (y, false)).2) := by
    intro c _ x y
    split <;> rfl
  simp only [pdqsortPrepare, breakPatterns_map, ite_map, choosePivot_map f less less2 hf,
    reverseRange_map, partialInsertionSort_map f less less2 hf, e]

theorem pdqsort_map {α β : Type} (f : α → β) (next : Nat → Nat) (less : α → α → Bool)
    (less2 : β → β → Bool) (hf : ∀ a b, less2 (f a) (f b) = less a b) (fuel : Nat)
    (data : List α) (a b limit : Nat) (wasBalanced wasPartitioned : Bool) :
    pdqsort next less2 fuel (data.map f) a b limit wasBalanced wasPartitioned =
      (pdqsort next less fuel data a b limit wasBalanced wasPartitioned).map f := by
  induction fuel generalizing data a b limit wasBalanced wasPartitioned with
  | zero => rfl
  | succ fuel ih =>
    simp only [pdqsort, insertionSort_map f less less2 hf, heapSort_map f less less2 hf,
      pdqsortPrepare_map f next less less2 hf, lessAt_map f less less2 hf,
      partitionEqual_map f less less2 hf, partition_map f less less2 hf, ih]
    repeat (first | rfl | split)

theorem sortWith_map {α β : Type} (f : α → β) (next : Nat → Nat) (less : α → α → Bool)
    (less2 : β → β → Bool) (hf : ∀ a b, less2 (f a) (f b) = less a b) (data : List α) :
    sortWith next less2 (data.map f) = (sortWith next less data).map f := by
  simp only [sortWith, List.length_map, pdqsort_map f next less less2 hf]
  split <;> rfl

/-! ## The iteration bounds of the sort are never reached -/

theorem scanUp_ge (p : Nat → Bool) (n i : Nat) : i ≤ scanUp p n i := by
  induction n generalizing i with
  | zero => exact Nat.le_refl _
  | succ n ih =>
    rw [scanUp]
    split
    · exact Nat.le_trans (Nat.le_succ i) (ih (i + 1))
    · exact Nat.le_refl _

theorem scanUp_le (p : Nat → Bool) (n i : Nat) : scanUp p n i ≤ i + n := by
  induction n generalizing i with
  | zero => exact Nat.le_refl _
  | succ n ih =>
    rw [scanUp]
    split
    · have := ih (i + 1)
      omega
    · omega

theorem scanDown_le (p : Nat → Bool) (n j : Nat) : scanDown p n j ≤ j := by
  induction n generalizing j with
  | zero => exact Nat.le_refl _
  | succ n ih =>
    rw [scanDown]
    split
    · have := ih (j - 1)
      omega
    · exact Nat.le_refl _

theorem scanDown_ge (p : Nat → Bool) (n j : Nat) : j ≤ scanDown p n j + n := by
  induction n generalizing j with
  | zero => exact Nat.le_refl _
  | succ n ih =>
    rw [scanDown]
    split
    · have := ih (j - 1)
      omega
    · omega

/-- The bound `hi` on the iterations of `siftDown` is enough: any larger bound
gives the same result. -/
theorem siftDown_fuel {α : Type} (less : α → α → Bool) (hi first fuel root : Nat)
    (data : List α) (h : hi ≤ root + fuel) :
    siftDown less hi first (fuel + 1) root data = siftDown less hi first fuel root data := by
  induction fuel generalizing root data with
  | zero =>
    have h1 : 2 * root + 1 ≥ hi := by omega
    simp [siftDown, h1]
  | succ fuel ih =>
    rw [siftDown]
    conv_rhs => rw [siftDown]
    by_cases h1 : 2 * root + 1 ≥ hi
    · rw [if_pos h1, if_pos h1]
    · rw [if_neg h1, if_neg h1]
      by_cases h2 : 2 * root + 1 + 1 < hi ∧
          lessAt less data (first + (2 * root + 1)) (first + (2 * root + 1) + 1) = true
      · simp only [if_pos h2]
        split
        · rfl
        · exact ih _ _ (by omega)
      · simp only [if_neg h2]
        split
        · rfl
        · exact ih _ _ (by omega)

/-- The bound on the iterations of `partitionLoop` is enough. -/
theorem partitionLoop_fuel {α : Type} (less : α → α → Bool) (a fuel i j : Nat) (data : List α)
    (h : j + 1 - i ≤ fuel) :
    partitionLoop less a (fuel + 1) i j data = partitionLoop less a fuel i j data := by
  induction fuel generalizing i j data with
  | zero =>
    have h1 : j + 1 - i = 0 := by omega
    simp [partitionLoop, h1, scanUp, scanDown]
    omega
  | succ fuel ih =>
    rw [partitionLoop]
    conv_rhs => rw [partitionLoop]
    split
    · rfl
    · apply ih
      have h1 := scanUp_ge (fun k => lessAt less data k a) (j + 1 - i) i
      have h2 := scanDown_le (fun k => !lessAt less data k a)
        (j + 1 - scanUp (fun k => lessAt less data k a) (j + 1 - i) i) j
      omega

/-- The bound on the iterations of `partitionEqualLoop` is enough. -/
theorem partitionEqualLoop_fuel {α : Type} (less : α → α → Bool) (a fuel i j : Nat)
    (data : List α) (h : j + 1 - i ≤ fuel) :
    partitionEqualLoop less a (fuel + 1) i j data = partitionEqualLoop less a fuel i j data := by
  induction fuel generalizing i j data with
  | zero =>
    have h1 : j + 1 - i = 0 := by omega
    simp [partitionEqualLoop, h1, scanUp, scanDown]
    omega
  | succ fuel ih =>
    rw [partitionEqualLoop]
    conv_rhs => rw [partitionEqualLoop]
    split
    · rfl
    · apply ih
      have h1 := scanUp_ge (fun k => !lessAt less data a k) (j + 1 - i) i
      have h2 := scanDown_le (fun k => lessAt less data a k)
        (j + 1 - scanUp (fun k => !lessAt less data a k) (j + 1 - i) i) j
      omega

theorem partitionLoop_snd_le {α : Type} (less : α → α → Bool) (a fuel i j : Nat)
    (data : List α) : (partitionLoop less a fuel i j data).2 ≤ j := by
  induction fuel generalizing i j data with
  | zero => exact Nat.le_refl _
  | succ fuel ih =>
    rw [partitionLoop]
    have h2 := scanDown_le (fun k => !lessAt less data k a)
      (j + 1 - scanUp (fun k => lessAt less data k a) (j + 1 - i) i) j
    split
    · exact h2
    · have := ih (scanUp (fun k => lessAt less data k a) (j + 1 - i) i + 1)
        (scanDown (fun k => !lessAt less data k a)
          (j + 1 - scanUp (fun k => lessAt less data k a) (j + 1 - i) i) j - 1)
        (swapAt data (scanUp (fun k => lessAt less data k a) (j + 1 - i) i)
          (scanDown (fun k => !lessAt less data k a)
            (j + 1 - scanUp (fun k => lessAt less data k a) (j + 1 - i) i) j))
      omega

theorem partitionLoop_snd_ge {α : Type} (less : α → α → Bool) (a fuel i j : Nat)
    (data : List α) : min j (i - 1) ≤ (partitionLoop less a fuel i j data).2 := by
  induction fuel generalizing i j data with
  | zero => exact Nat.min_le_left _ _
  | succ fuel ih =>
    rw [partitionLoop]
    have h1 := scanUp_ge (fun k => lessAt less data k a) (j + 1 - i) i
    have h2 := scanDown_ge (fun k => !lessAt less data k a)
      (j + 1 - scanUp (fun k => lessAt less data k a) (j + 1 - i) i) j
    split
    · simp only [Nat.min_def]
      split <;> omega
    · have h3 := ih (scanUp (fun k => lessAt less data k a) (j + 1 - i) i + 1)
        (scanDown (fun k => !lessAt less data k a)
          (j + 1 - scanUp (fun k => lessAt less data k a) (j + 1 - i) i) j - 1)
        (swapAt data (scanUp (fun k => lessAt less data k a) (j + 1 - i) i)
          (scanDown (fun k => !lessAt less data k a)
            (j + 1 - scanUp (fun k => lessAt less data k a) (j + 1 - i) i) j))
      simp only [Nat.min_def] at h3 ⊢
      split at h3 <;> split <;> omega

/-- The index `partition` returns lies in the range it partitions. -/
theorem partition_mid {α : Type} (less : α → α → Bool) (data : List α) (a b pivot : Nat)
    (hab : a < b) :
    a ≤ (partition less data a b pivot).2.1 ∧ (partition less data a b pivot).2.1 < b := by
  rw [partition]
  have h1 := scanUp_ge (fun k => lessAt less (swapAt data a pivot) k a) (b - 1 + 1 - (a + 1))
    (a + 1)
  have h1u := scanUp_le (fun k => lessAt less (swapAt data a pivot) k a) (b - 1 + 1 - (a + 1))
    (a + 1)
  have h2 := scanDown_le (fun k => !lessAt less (swapAt data a pivot) k a)
    (b - 1 + 1 - scanUp (fun k => lessAt less (swapAt data a pivot) k a)
      (b - 1 + 1 - (a + 1)) (a + 1)) (b - 1)
  have h2g := scanDown_ge (fun k => !lessAt less (swapAt data a pivot) k a)
    (b - 1 + 1 - scanUp (fun k => lessAt less (swapAt data a pivot) k a)
      (b - 1 + 1 - (a + 1)) (a + 1)) (b - 1)
  split
  · simp only
    omega
  · simp only
    have h3 := partitionLoop_snd_le less a (b - a)
      (scanUp (fun k => lessAt less (swapAt data a pivot) k a) (b - 1 + 1 - (a + 1)) (a + 1) + 1)
      (scanDown (fun k => !lessAt less (swapAt data a pivot) k a)
        (b - 1 + 1 - scanUp (fun k => lessAt less (swapAt data a pivot) k a)
          (b - 1 + 1 - (a + 1)) (a + 1)) (b - 1) - 1)
      (swapAt (swapAt data a pivot)
        (scanUp (fun k => lessAt less (swapAt data a pivot) k a) (b - 1 + 1 - (a + 1)) (a + 1))
        (scanDown (fun k => !lessAt less (swapAt data a pivot) k a)
          (b - 1 + 1 - scanUp (fun k => lessAt less (swapAt data a pivot) k a)
            (b - 1 + 1 - (a + 1)) (a + 1)) (b - 1)))
    have h4 := partitionLoop_snd_ge less a (b - a)
      (scanUp (fun k => lessAt less (swapAt data a pivot) k a) (b - 1 + 1 - (a + 1)) (a + 1) + 1)
      (scanDown (fun k => !lessAt less (swapAt data a pivot) k a)
        (b - 1 + 1 - scanUp (fun k => lessAt less (swapAt data a pivot) k a)
          (b - 1 + 1 - (a + 1)) (a + 1)) (b - 1) - 1)
      (swapAt (swapAt data a pivot)
        (scanUp (fun k => lessAt less (swapAt data a pivot) k a) (b - 1 + 1 - (a + 1)) (a + 1))
        (scanDown (fun k => !lessAt less (swapAt data a pivot) k a)
          (b - 1 + 1 - scanUp (fun k => lessAt less (swapAt data a pivot) k a)
            (b - 1 + 1 - (a + 1)) (a + 1)) (b - 1)))
    simp only [Nat.min_def] at h4
    split at h4 <;> omega

theorem partitionEqualLoop_snd_ge {α : Type} (less : α → α → Bool) (a fuel i j : Nat)
    (data : List α) : i ≤ (partitionEqualLoop less a fuel i j data).2 := by
  induction fuel generalizing i j data with
  | zero => exact Nat.le_refl _
  | succ fuel ih =>
    rw [partitionEqualLoop]
    have h1 := scanUp_ge (fun k => !lessAt less data a k) (j + 1 - i) i
    split
    · exact h1
    · have h3 := ih (scanUp (fun k => !lessAt less data a k) (j + 1 - i) i + 1)
        (scanDown (fun k => lessAt less data a k)
          (j + 1 - scanUp (fun k => !lessAt less data a k) (j + 1 - i) i) j - 1)
        (swapAt data (scanUp (fun k => !lessAt less data a k) (j + 1 - i) i)
          (scanDown (fun k => lessAt less data a k)
            (j + 1 - scanUp (fun k => !lessAt less data a k) (j + 1 - i) i) j))
      omega

/-- The index `partitionEqual` returns lies behind the start of the range. -/
theorem partitionEqual_mid {α : Type} (less : α → α → Bool) (data : List α) (a b pivot : Nat) :
    a < (partitionEqual less data a b pivot).2 := by
  have := partitionEqualLoop_snd_ge less a (b - a + 1) (a + 1) (b - 1) (swapAt data a pivot)
  rw [partitionEqual]
  omega

theorem partitionEqual_range {α : Type} (less : α → α → Bool) (data : List α)
    (a b pivot fuel : Nat) (hab : a < b) (h : b - a < fuel + 1) :
    b - (partitionEqual less data a b pivot).2 < fuel := by
  have := partitionEqual_mid less data a b pivot
  omega

theorem partition_left {α : Type} (less : α → α → Bool) (data : List α) (a b pivot fuel : Nat)
    (hab : a < b) (h : b - a < fuel + 1) : (partition less data a b pivot).2.1 - a < fuel := by
  have := partition_mid less data a b pivot hab
  omega

theorem partition_right {α : Type} (less : α → α → Bool) (data : List α) (a b pivot fuel : Nat)
    (hab : a < b) (h : b - a < fuel + 1) :
    b - ((partition less data a b pivot).2.1 + 1) < fuel := by
  have := partition_mid less data a b pivot hab
  omega

/-- Every iteration of `pdqsort` shortens the range, so a bound above `b - a`
is never used up: a larger bound gives the same result. -/
theorem pdqsort_fuel {α : Type} (next : Nat → Nat) (less : α → α → Bool) (fuel : Nat)
    (data : List α) (a b limit : Nat) (wasBalanced wasPartitioned : Bool) (h : b - a < fuel) :
    pdqsort next less (fuel + 1) data a b limit wasBalanced wasPartitioned =
      pdqsort next less fuel data a b limit wasBalanced wasPartitioned := by
  induction fuel generalizing data a b limit wasBalanced wasPartitioned with
  | zero => omega
  | succ fuel ih =>
    rw [pdqsort]
    conv_rhs => rw [pdqsort]
    by_cases h1 : b - a ≤ 12
    · rw [if_pos h1, if_pos h1]
    · have hab : a < b := by omega
      rw [if_neg h1, if_neg h1]
      by_cases h2 : limit = 0
      · rw [if_pos h2, if_pos h2]
      · rw [if_neg h2, if_neg h2]
        simp only
        split
        · rfl
        · split
          · exact ih _ _ _ _ _ _ (partitionEqual_range less _ a b _ fuel hab h)
          · split
            · rw [ih _ _ _ _ _ _ (partition_left less _ a b _ fuel hab h)]
              exact ih _ _ _ _ _ _ (partition_right less _ a b _ fuel hab h)
            · rw [ih _ _ _ _ _ _ (partition_right less _ a b _ fuel hab h)]
              exact ih _ _ _ _ _ _ (partition_left less _ a b _ fuel hab h)

theorem pdqsort_fuel_add {α : Type} (next : Nat → Nat) (less : α → α → Bool) (fuel extra : Nat)
    (data : List α) (a b limit : Nat) (wasBalanced wasPartitioned : Bool) (h : b - a < fuel) :
    pdqsort next less (fuel + extra) data a b limit wasBalanced wasPartitioned =
      pdqsort next less fuel data a b limit wasBalanced wasPartitioned := by
  induction extra with
  | zero => rfl
  | succ k ih =>
    rw [← ih, ← Nat.add_assoc]
    exact pdqsort_fuel next less (fuel + k) data a b limit wasBalanced wasPartitioned (by omega)

/-- The bound `sortWith` starts `pdqsort` with is enough: a larger bound gives
the same result. -/
theorem sortWith_fuel {α : Type} (next : Nat → Nat) (less : α → α → Bool) (data : List α)
    (extra : Nat) (h : 1 < data.length) :
    pdqsort next less (data.length + 1 + extra) data 0 data.length (bitsLen data.length)
      true true = sortWith next less data := by
  have h1 : ¬ data.length ≤ 1 := by omega
  rw [sortWith, if_neg h1]
  exact pdqsort_fuel_add next less _ extra data 0 data.length _ true true (by omega)

/-! ## `findVideoFiles`: claim C4 -/

theorem collectVideoFiles_eq (h : Host) (dir : GoString) (files : List FileInfo) :
    collectVideoFiles h dir files =
      (files.filter (fun f => !f.isDir && isVideoFile h f.name)).map
        (fun f => h.join dir f.name) := by
  have e : ∀ acc : List GoString,
      files.foldl
          (fun videoFiles file =>
            if !file.isDir && isVideoFile h file.name then videoFiles ++ [h.join dir file.name]
            else videoFiles)
          acc =
        acc ++ (files.filter (fun f => !f.isDir && isVideoFile h f.name)).map
          (fun f => h.join dir f.name) := by
    induction files with
    | nil => simp
    | cons f fs ih =>
      intro acc
      rw [List.foldl_cons, ih]
      by_cases hf : (!f.isDir && isVideoFile h f.name) = true
      · simp [List.filter_cons, hf]
      · simp [List.filter_cons, hf]
  have e2 := e []
  rw [List.nil_append] at e2
  exact e2

set_option maxRecDepth 100000 in
/-- Claim C4 fails on listings of more than 12 video files, through the defect
of claim C9: `naturalLess` is not transitive. The 36 entries of `listing36`
are regular files that pass `isVideoFile`, in the order `ioutil.ReadDir` gives
them (sorted by name); `sort.Sort` ends in its heapsort, and `findVideoFiles`
returns `v/a.avi` directly before `v/a-3.avi`, although `naturalLess` puts
`v/a-3.avi` before `v/a.avi`. With the other shift distances of
`xorshift.Next` the same happens on the 37 entries of `listing37`, where
`v/a-6.avi` is returned directly before `v/a-2.avi`. -/
theorem findVideoFiles_unsorted :
    (sortedUnder stringLess (listing36.map (fun f => f.name)) = true ∧
      (∀ f ∈ listing36, f.isDir = false ∧ isVideoFile unixHost f.name = true) ∧
      (findVideoFiles unixHost (utf8 "v") (.ok listing36)).toOption = some result36 ∧
      result36.get? 31 = some (utf8 "v/a.avi") ∧ result36.get? 32 = some (utf8 "v/a-3.avi") ∧
      naturalLess (utf8 "v/a-3.avi") (utf8 "v/a.avi") = true ∧
      sortedUnder naturalLess result36 = false) ∧
    (sortedUnder stringLess (listing37.map (fun f => f.name)) = true ∧
      (∀ f ∈ listing37, f.isDir = false ∧ isVideoFile unixHostAlt f.name = true) ∧
      (findVideoFiles unixHostAlt (utf8 "v") (.ok listing37)).toOption = some result37 ∧
      result37.get? 33 = some (utf8 "v/a-6.avi") ∧ result37.get? 34 = some (utf8 "v/a-2.avi") ∧
      naturalLess (utf8 "v/a-2.avi") (utf8 "v/a-6.avi") = true ∧
      sortedUnder naturalLess result37 = false) := by
  decide

/-! ## Paths of one directory: claim C10 -/

/-- Claim C10: a common prefix `p` that is empty or ends in a non-digit (such
as the separator `filepath.Join` inserts) does not change the comparison, also
when `p` contains digit runs: `naturalLess (p ++ x) (p ++ y) = naturalLess x y`.
Hence sorting the names behind the prefix `p` gives the order of the names
themselves, whatever the directory. -/
theorem naturalLess_common_directory (h : Host) (p x y : GoString)
    (hp : endsInNonDigit p = true) :
    naturalLess (p ++ x) (p ++ y) = naturalLess x y ∧
      ∀ names : List GoString,
        sortSort h (names.map (fun n => p ++ n)) = (sortSort h names).map (fun n => p ++ n) :=
  ⟨naturalLess_append_left p x y hp, fun names =>
    sortWith_map (fun n => p ++ n) h.xorshift naturalLess naturalLess
      (fun a b => naturalLess_append_left p a b hp) names⟩

/-- Witness for claim C10: the directory `season2/`. -/
theorem naturalLess_common_directory_witness :
    endsInNonDigit (utf8 "season2/") = true ∧
      naturalLess (utf8 "season2/" ++ utf8 "e10.mp4") (utf8 "season2/" ++ utf8 "e9.mp4") =
        naturalLess (utf8 "e10.mp4") (utf8 "e9.mp4") :=
  ⟨by decide, (naturalLess_common_directory unixHost (utf8 "season2/") (utf8 "e10.mp4")
    (utf8 "e9.mp4") (by decide)).1⟩

/-! ## File system lemmas -/

theorem fsRead_fsWrite (fs : FileSystem) (path content : GoString) :
    fsRead (fsWrite fs path content) path = some content := by
  simp [fsRead, fsWrite]

theorem fsExists_fsRemove (fs : FileSystem) (path : GoString) :
    fsExists (fsRemove fs path) path = false := by
  simp [fsExists, fsRemove]

theorem vfsRead_vfsWrite (fs : VirtualFs) (name : GoString) (data : JsValue) :
    vfsRead (vfsWrite fs name data) name = some data := by
  simp [vfsRead, vfsWrite]

theorem find?_filter_of_imp {α : Type} (q r : α → Bool) (l : List α)
    (hqr : ∀ x, q x = true → r x = true) : (l.filter r).find? q = l.find? q := by
  induction l with
  | nil => rfl
  | cons x xs ih =>
    by_cases hr : r x = true
    · rw [List.filter_cons, if_pos hr, List.find?_cons, List.find?_cons, ih]
    · have hq : q x = false := by
        cases hqx : q x with
        | false => rfl
        | true => exact absurd (hqr x hqx) hr
      rw [List.filter_cons, if_neg hr, List.find?_cons, hq, ih]

theorem vfsRead_vfsWrite_ne (fs : VirtualFs) (name other : GoString) (data : JsValue)
    (hne : other ≠ name) : vfsRead (vfsWrite fs other data) name = vfsRead fs name := by
  have h1 : ((other, data) :: fs.filter (fun e => e.1 ≠ other)).find? (fun e => e.1 = name) =
      (fs.filter (fun e => decide (e.1 ≠ other))).find? (fun e => decide (e.1 = name)) := by
    rw [List.find?_cons]
    simp [hne]
  rw [vfsRead, vfsWrite, h1, find?_filter_of_imp]
  · rfl
  · intro x hx
    have e : x.1 = name := by simpa using hx
    simpa [e] using fun e2 : name = other => hne e2.symm

theorem vfsExists_vfsWrite_self (fs : VirtualFs) (name : GoString) (data : JsValue) :
    vfsExists (vfsWrite fs name data) name = true := by
  simp [vfsExists, vfsWrite]

theorem vfsExists_vfsWrite_of_exists (fs : VirtualFs) (name other : GoString) (data : JsValue)
    (h : vfsExists fs name = true) : vfsExists (vfsWrite fs other data) name = true := by
  by_cases e : other = name
  · rw [e]
    exact vfsExists_vfsWrite_self fs name data
  · simp only [vfsExists, vfsWrite, List.any_cons, List.any_eq_true, Bool.or_eq_true,
      decide_eq_true_eq, List.mem_filter] at h ⊢
    obtain ⟨x, hx, hn⟩ := h
    exact Or.inr ⟨x, ⟨hx, by simpa [hn] using fun e2 : name = other => e e2.symm⟩, hn⟩

/-! ## The manifest builders: claim C5 -/

theorem writeEntries_ok (fl : NativeFaults) (hwrite : ∀ i, fl.writeFails i = false)
    (files : List GoString) (i : Nat) (buf : GoString) :
    writeEntries fl i files buf = .ok (buf ++ files.flatMap sprintfFile) := by
  induction files generalizing i buf with
  | nil => simp [writeEntries]
  | cons f fs ih =>
    rw [writeEntries, hwrite i]
    simp only [Bool.false_eq_true, if_false]
    rw [ih]
    simp

theorem createFileList_ok (fl : NativeFaults) (files : List GoString) (lp : GoString) (w : World)
    (hcreate : fl.createFails = false) (hwrite : ∀ i, fl.writeFails i = false)
    (hflush : fl.flushFails = false) :
    (createFileList fl files lp w).1 = none ∧
      fsRead (createFileList fl files lp w).2.fs lp = some (files.flatMap sprintfFile) := by
  simp [createFileList, hcreate, hflush, writeEntries_ok fl hwrite, fsRead_fsWrite]

theorem writeInputs_ok (eng : Bridge) (hw : ∀ n, eng.writeThrows n = false)
    (files : List GoString) (contents : JsValue) (rest pre : List GoString)
    (hfiles : pre ++ rest = files) (st : BridgeState) (builder : GoString) :
    ∃ st1, writeInputs eng (.array (files.map .string)) contents rest.length pre.length st builder =
      some (st1, builder ++ rest.flatMap sprintfFile) := by
  induction rest generalizing pre st builder with
  | nil => exact ⟨st, by simp [writeInputs]⟩
  | cons f rs ih =>
    have hget : (files.map JsValue.string).get? pre.length = some (.string f) := by
      rw [← hfiles, List.map_append, List.get?_eq_getElem?,
        List.getElem?_append_right (by simp)]
      simp
    have hidx : (JsValue.array (files.map .string)).index pre.length = .string f := by
      show ((files.map JsValue.string).get? pre.length).getD .undefined = .string f
      rw [hget]
      rfl
    have hfiles2 : (pre ++ [f]) ++ rs = files := by simpa using hfiles
    obtain ⟨st1, h1⟩ := ih (pre ++ [f]) hfiles2
      { fs := vfsWrite st.fs f (contents.index pre.length),
        calls := st.calls ++ [EngineCall.writeFile f] } (builder ++ sprintfFile f)
    refine ⟨st1, ?_⟩
    have hlen : (pre ++ [f]).length = pre.length + 1 := by simp
    rw [hlen] at h1
    simp only [List.length_cons, writeInputs, hidx, JsValue.goString, hw f,
      Bool.false_eq_true, if_false, h1]
    simp

theorem runAndReadBack_read (eng : Bridge) (st : BridgeState) (name : GoString)
    (hne : outputFileName ≠ name) :
    vfsRead (runAndReadBack eng st).state.fs name = vfsRead st.fs name := by
  have hfs : vfsRead (match eng.produced with
      | some data => vfsWrite st.fs outputFileName data
      | none => st.fs) name = vfsRead st.fs name := by
    cases eng.produced with
    | none => rfl
    | some data => exact vfsRead_vfsWrite_ne st.fs name outputFileName data hne
  unfold runAndReadBack
  simp only [clearProgress]
  split
  · rfl
  · split
    · exact hfs
    · split <;> exact hfs

theorem mergeVideosGo_manifest (eng : Bridge) (files : List GoString) (contents : List JsValue)
    (cb : Nat) (st : BridgeState) (hpresent : eng.present = true)
    (hw : ∀ n, eng.writeThrows n = false) (hsp : eng.setProgressThrows = false)
    (hne : files ≠ []) (hlen : contents.length = files.length) :
    vfsRead (mergeVideosGo eng [.array (files.map .string), .array contents, .function cb]
      st).state.fs concatListFileName = some (.string (files.flatMap sprintfFile)) := by
  have hlen0 : files.length ≠ 0 := fun e => hne (List.eq_nil_of_length_eq_zero e)
  obtain ⟨st1, h1⟩ := writeInputs_ok eng hw files (.array contents) files [] rfl st []
  simp only [List.length_nil, List.nil_append] at h1
  simp only [mergeVideosGo, JsValue.type, JsValue.lengthType, JsValue.length, List.length_map,
    hlen0, hlen, mergeGoroutine, hpresent, h1, hw, hsp]
  simp only [ne_eq, not_true_eq_false, or_self, if_false, Bool.not_true, Bool.false_eq_true]
  rw [runAndReadBack_read _ _ _ (by decide)]
  exact vfsRead_vfsWrite _ _ _

/-- Claim C5: for every list of file paths, the manifest `createFileList`
writes and the concat list `mergeVideosGo` writes to `mylist.txt` are both the
concatenation, in input order, of the entries `file '<path>'` each followed by
a newline; the two builders agree. -/
theorem manifest_text (files : List GoString) (fl : NativeFaults) (lp : GoString) (w : World)
    (eng : Bridge) (contents : List JsValue) (cb : Nat) (st : BridgeState)
    (hcreate : fl.createFails = false) (hwrite : ∀ i, fl.writeFails i = false)
    (hflush : fl.flushFails = false) (hpresent : eng.present = true)
    (hw : ∀ n, eng.writeThrows n = false) (hsp : eng.setProgressThrows = false) :
    ((createFileList fl files lp w).1 = none ∧
      fsRead (createFileList fl files lp w).2.fs lp =
        some (files.flatMap (fun f => utf8 "file '" ++ f ++ utf8 "'\n"))) ∧
      (files ≠ [] → contents.length = files.length →
        vfsRead (mergeVideosGo eng [.array (files.map .string), .array contents, .function cb]
          st).state.fs concatListFileName =
          some (.string (files.flatMap (fun f => utf8 "file '" ++ f ++ utf8 "'\n")))) :=
  ⟨createFileList_ok fl files lp w hcreate hwrite hflush,
    fun hne hlen => mergeVideosGo_manifest eng files contents cb st hpresent hw hsp hne hlen⟩

/-- Witness for claim C5: two paths, in input order, on both builders. -/
theorem manifest_text_witness :
    fsRead (createFileList noFaults [utf8 "b2.mp4", utf8 "a1.mp4"] listPath emptyWorld).2.fs
        listPath = some (utf8 "file 'b2.mp4'\nfile 'a1.mp4'\n") ∧
      vfsRead (mergeVideosGo healthyEngine
          [.array ([utf8 "b2.mp4", utf8 "a1.mp4"].map .string),
            .array [.uint8Array [7], .uint8Array [8]], .function 0]
          freshEngine).state.fs concatListFileName =
        some (.string (utf8 "file 'b2.mp4'\nfile 'a1.mp4'\n")) :=
  have h := manifest_text [utf8 "b2.mp4", utf8 "a1.mp4"] noFaults listPath emptyWorld
    healthyEngine [.uint8Array [7], .uint8Array [8]] 0 freshEngine rfl (fun _ => rfl) rfl rfl
    (fun _ => rfl) rfl
  ⟨h.1.2, h.2 (by decide) rfl⟩

/-! ## Quoting in the manifest: claim C6 -/

/-- Claim C6 fails: the name `a'b.mp4` contains the quote character, neither
builder rejects it, and both copy it unchanged between the delimiting quotes
of its entry. -/
theorem manifest_quote_unescaped :
    quote ∈ utf8 "a'b.mp4" ∧
      (createFileList noFaults [utf8 "a'b.mp4"] listPath emptyWorld).1 = none ∧
      fsRead (createFileList noFaults [utf8 "a'b.mp4"] listPath emptyWorld).2.fs listPath =
        some (utf8 "file '" ++ utf8 "a'b.mp4" ++ utf8 "'\n") ∧
      vfsRead (mergeVideosGo healthyEngine
          [.array [.string (utf8 "a'b.mp4")], .array [.uint8Array [7]], .function 0]
          freshEngine).state.fs concatListFileName =
        some (.string (utf8 "file '" ++ utf8 "a'b.mp4" ++ utf8 "'\n")) :=
  ⟨by decide, by decide, by decide,
    mergeVideosGo_manifest healthyEngine [utf8 "a'b.mp4"] [.uint8Array [7]] 0 freshEngine rfl
      (fun _ => rfl) rfl (by decide) rfl⟩

theorem entry_counts (name : GoString) :
    (utf8 "file '" ++ name ++ utf8 "'\n").count quote = 2 + name.count quote ∧
      (utf8 "file '" ++ name ++ utf8 "'\n").count newline = 1 + name.count newline := by
  have h1 : (utf8 "file '").count quote = 1 := by decide
  have h2 : (utf8 "'\n").count quote = 1 := by decide
  have h3 : (utf8 "file '").count newline = 0 := by decide
  have h4 : (utf8 "'\n").count newline = 1 := by decide
  rw [List.count_append, List.count_append, List.count_append, List.count_append, h1, h2, h3, h4]
  omega

/-- Claim C6 as amended: neither builder rejects or escapes a name. Each
entry is `file '`, the name unchanged, `'` and a newline; it has exactly its
two delimiting quotes and its one final newline if and only if the name
contains no quote and no newline. -/
theorem manifest_entry_verbatim (name : GoString) (fl : NativeFaults) (lp : GoString) (w : World)
    (eng : Bridge) (data : JsValue) (cb : Nat) (st : BridgeState)
    (hcreate : fl.createFails = false) (hwrite : ∀ i, fl.writeFails i = false)
    (hflush : fl.flushFails = false) (hpresent : eng.present = true)
    (hw : ∀ n, eng.writeThrows n = false) (hsp : eng.setProgressThrows = false) :
    (createFileList fl [name] lp w).1 = none ∧
      fsRead (createFileList fl [name] lp w).2.fs lp =
        some (utf8 "file '" ++ name ++ utf8 "'\n") ∧
      vfsRead (mergeVideosGo eng [.array [.string name], .array [data], .function cb]
        st).state.fs concatListFileName = some (.string (utf8 "file '" ++ name ++ utf8 "'\n")) ∧
      (((utf8 "file '" ++ name ++ utf8 "'\n").count quote = 2 ∧
          (utf8 "file '" ++ name ++ utf8 "'\n").count newline = 1) ↔
        (quote ∉ name ∧ newline ∉ name)) := by
  have h1 := createFileList_ok fl [name] lp w hcreate hwrite hflush
  have h2 := mergeVideosGo_manifest eng [name] [data] cb st hpresent hw hsp (by simp) rfl
  have e : [name].flatMap sprintfFile = utf8 "file '" ++ name ++ utf8 "'\n" := by
    simp [sprintfFile]
  rw [e] at h1 h2
  refine ⟨h1.1, h1.2, h2, ?_⟩
  obtain ⟨c1, c2⟩ := entry_counts name
  rw [c1, c2, ← List.count_eq_zero, ← List.count_eq_zero]
  omega

/-- Witness for claim C6 as amended: the name `a1.mp4`. -/
theorem manifest_entry_verbatim_witness :
    fsRead (createFileList noFaults [utf8 "a1.mp4"] listPath emptyWorld).2.fs listPath =
        some (utf8 "file 'a1.mp4'\n") ∧
      (utf8 "file 'a1.mp4'\n").count quote = 2 ∧ (utf8 "file 'a1.mp4'\n").count newline = 1 :=
  have h := manifest_entry_verbatim (utf8 "a1.mp4") noFaults listPath emptyWorld healthyEngine
    (.uint8Array [7]) 0 freshEngine rfl (fun _ => rfl) rfl rfl (fun _ => rfl) rfl
  ⟨h.2.1, h.2.2.2.mpr (by decide)⟩

/-! ## Removal of the manifest: claim C7 -/

/-- Claim C7 fails. On the bridge, a successful merge and a merge whose engine
run throws both leave `mylist.txt` in the virtual file system; in the native
tool a failed flush of the manifest leaves `video_list.txt` behind. -/
theorem manifest_left_behind :
    (∃ data, (mergeVideosGo healthyEngine
        [.array [.string (utf8 "a1.mp4")], .array [.uint8Array [7]], .function 0]
        freshEngine).outcome = .resolved data) ∧
      vfsExists (mergeVideosGo healthyEngine
        [.array [.string (utf8 "a1.mp4")], .array [.uint8Array [7]], .function 0]
        freshEngine).state.fs concatListFileName = true ∧
      (mergeVideosGo throwingEngine
        [.array [.string (utf8 "a1.mp4")], .array [.uint8Array [7]], .function 0]
        freshEngine).outcome.reachedEngine = true ∧
      vfsExists (mergeVideosGo throwingEngine
        [.array [.string (utf8 "a1.mp4")], .array [.uint8Array [7]], .function 0]
        freshEngine).state.fs concatListFileName = true ∧
      (mergeVideos flushFailure [utf8 "a1.mp4"] (utf8 "out.mp4") emptyWorld).1 = some .flush ∧
      fsExists (mergeVideos flushFailure [utf8 "a1.mp4"] (utf8 "out.mp4") emptyWorld).2.fs
        listPath = true :=
  ⟨⟨_, rfl⟩, by decide, by decide, by decide, by decide, by decide⟩

theorem runAndReadBack_exists (eng : Bridge) (st : BridgeState) (name : GoString)
    (h : vfsExists st.fs name = true) :
    vfsExists (runAndReadBack eng st).state.fs name = true := by
  have hfs : vfsExists (match eng.produced with
      | some data => vfsWrite st.fs outputFileName data
      | none => st.fs) name = true := by
    cases eng.produced with
    | none => exact h
    | some data => exact vfsExists_vfsWrite_of_exists st.fs name outputFileName data h
  unfold runAndReadBack
  simp only [clearProgress]
  split
  · exact h
  · split
    · exact hfs
    · split <;> exact hfs

theorem mergeGoroutine_keeps_manifest (eng : Bridge) (names contents : JsValue) (n : Nat)
    (st : BridgeState) (h : (mergeGoroutine eng names contents n st).outcome.reachedEngine = true) :
    vfsExists (mergeGoroutine eng names contents n st).state.fs concatListFileName = true := by
  unfold mergeGoroutine at h ⊢
  by_cases hp : eng.present = true
  · simp only [hp, Bool.not_true, Bool.false_eq_true, if_false] at h ⊢
    cases hwi : writeInputs eng names contents n 0 st [] with
    | none =>
      rw [hwi] at h
      simp [Outcome.reachedEngine] at h
    | some r =>
      obtain ⟨st1, content⟩ := r
      rw [hwi] at h
      simp only [hwi] at h ⊢
      by_cases h1 : eng.writeThrows concatListFileName = true
      · simp [h1, Outcome.reachedEngine] at h
      · by_cases h2 : eng.setProgressThrows = true
        · simp [h1, h2, Outcome.reachedEngine] at h
        · simp only [h1, h2, if_false]
          exact runAndReadBack_exists _ _ _ (vfsExists_vfsWrite_self _ _ _)
  · simp [hp, Outcome.reachedEngine] at h

theorem mergeVideosGo_keeps_manifest (eng : Bridge) (args : List JsValue) (st : BridgeState)
    (h : (mergeVideosGo eng args st).outcome.reachedEngine = true) :
    vfsExists (mergeVideosGo eng args st).state.fs concatListFileName = true := by
  unfold mergeVideosGo at h ⊢
  split at h
  · rename_i names contents cb rest
    simp only at h ⊢
    split at h
    · simp [Outcome.reachedEngine] at h
    · split at h
      · simp [Outcome.reachedEngine] at h
      · split at h
        · simp [Outcome.reachedEngine] at h
        · split at h
          · simp [Outcome.reachedEngine] at h
          · split at h
            · simp [Outcome.reachedEngine] at h
            · rename_i h1 h2 h3 h4 h5
              rw [if_neg h1, if_neg h2, if_neg h3, if_neg h4, if_neg h5]
              exact mergeGoroutine_keeps_manifest _ _ _ _ _ h
  · simp [Outcome.reachedEngine] at h

/-- Claim C7 as amended. In `mergeVideos`, once `createFileList` has
succeeded, `video_list.txt` no longer exists when `mergeVideos` returns,
whatever the engine does and whether it fails or succeeds. `mergeVideosGo`
never removes `mylist.txt`: after every merge that went as far as the engine
run, resolved or rejected, it is still in the virtual file system. -/
theorem manifest_cleanup (fl : NativeFaults) (files : List GoString) (output : GoString)
    (w : World) (eng : Bridge) (args : List JsValue) (st : BridgeState) :
    (files ≠ [] → (createFileList fl files listPath w).1 = none →
      fsExists (mergeVideos fl files output w).2.fs listPath = false) ∧
    ((mergeVideosGo eng args st).outcome.reachedEngine = true →
      vfsExists (mergeVideosGo eng args st).state.fs concatListFileName = true) := by
  refine ⟨?_, mergeVideosGo_keeps_manifest eng args st⟩
  intro hne hbuilt
  have hlen : files.length ≠ 0 := fun e => hne (List.eq_nil_of_length_eq_zero e)
  rw [mergeVideos, if_neg hlen]
  cases hc : createFileList fl files listPath w with
  | mk err w1 =>
    rw [hc] at hbuilt
    simp only at hbuilt
    subst hbuilt
    exact fsExists_fsRemove _ _

/-- Witness for claim C7 as amended: a native merge whose engine exits with an
error, and a bridged merge that succeeds. -/
theorem manifest_cleanup_witness :
    (mergeVideos engineFailure [utf8 "a1.mp4"] (utf8 "out.mp4") emptyWorld).1 = some .wait ∧
      fsExists (mergeVideos engineFailure [utf8 "a1.mp4"] (utf8 "out.mp4") emptyWorld).2.fs
        listPath = false ∧
      vfsExists (mergeVideosGo healthyEngine
        [.array [.string (utf8 "a1.mp4")], .array [.uint8Array [7]], .function 0]
        freshEngine).state.fs concatListFileName = true :=
  have h := manifest_cleanup engineFailure [utf8 "a1.mp4"] (utf8 "out.mp4") emptyWorld
    healthyEngine [.array [.string (utf8 "a1.mp4")], .array [.uint8Array [7]], .function 0]
    freshEngine
  ⟨by decide, h.1 (by decide) (by decide), h.2 (by decide)⟩

/-! ## Merging zero files: claim C8 -/

theorem runAndReadBack_not_noFiles (eng : Bridge) (st : BridgeState) :
    (runAndReadBack eng st).outcome ≠ .rejected .noFiles := by
  unfold runAndReadBack
  simp only
  split
  · simp
  · split
    · simp
    · split <;> simp

theorem mergeGoroutine_not_noFiles (eng : Bridge) (names contents : JsValue) (n : Nat)
    (st : BridgeState) : (mergeGoroutine eng names contents n st).outcome ≠ .rejected .noFiles := by
  unfold mergeGoroutine
  split
  · simp
  · split
    · simp
    · simp only
      split
      · simp
      · split
        · simp
        · exact runAndReadBack_not_noFiles _ _

theorem mergeVideosGo_empty (eng : Bridge) (args : List JsValue) (st : BridgeState)
    (hargs : args.head? = some (.array [])) :
    ∃ why, mergeVideosGo eng args st = { outcome := .rejected why, state := st } := by
  cases args with
  | nil => simp at hargs
  | cons a rest1 =>
    have ha : a = .array [] := by simpa using hargs
    subst ha
    cases rest1 with
    | nil => exact ⟨.arity, rfl⟩
    | cons b rest2 =>
      cases rest2 with
      | nil => exact ⟨.arity, rfl⟩
      | cons c rest3 =>
        simp only [mergeVideosGo, JsValue.type, JsValue.lengthType, JsValue.length,
          List.length_nil, ne_eq, not_true_eq_false, or_self, if_false, if_true]
        split
        · exact ⟨_, rfl⟩
        · split
          · exact ⟨_, rfl⟩
          · exact ⟨_, rfl⟩

theorem mergeVideosGo_nonempty (eng : Bridge) (args : List JsValue) (st : BridgeState)
    (names : List JsValue) (hargs : args.head? = some (.array names)) (hne : names ≠ []) :
    (mergeVideosGo eng args st).outcome ≠ .rejected .noFiles := by
  have hlen : names.length ≠ 0 := fun e => hne (List.eq_nil_of_length_eq_zero e)
  cases args with
  | nil => simp at hargs
  | cons a rest1 =>
    have ha : a = .array names := by simpa using hargs
    subst ha
    cases rest1 with
    | nil => simp [mergeVideosGo]
    | cons b rest2 =>
      cases rest2 with
      | nil => simp [mergeVideosGo]
      | cons c rest3 =>
        simp only [mergeVideosGo, JsValue.type, JsValue.lengthType, JsValue.length, hlen,
          ne_eq, not_true_eq_false, or_self, if_false]
        split
        · simp
        · split
          · simp
          · split
            · simp
            · exact mergeGoroutine_not_noFiles _ _ _ _ _

theorem createFileList_trace (fl : NativeFaults) (files : List GoString) (lp : GoString)
    (w : World) : (createFileList fl files lp w).2.trace = w.trace ++ [Effect.osCreate lp] := by
  unfold createFileList
  simp only
  split
  · rfl
  · split
    · rfl
    · split <;> rfl

theorem writeEntries_error (fl : NativeFaults) (files : List GoString) (i : Nat) (buf : GoString)
    (err : MergeError) (h : writeEntries fl i files buf = .error err) : err = .write := by
  induction files generalizing i buf with
  | nil => simp [writeEntries] at h
  | cons f fs ih =>
    rw [writeEntries] at h
    split at h
    · simpa using h.symm
    · exact ih _ _ h

theorem createFileList_error (fl : NativeFaults) (files : List GoString) (lp : GoString)
    (w : World) : (createFileList fl files lp w).1 ≠ some .noVideoFiles := by
  unfold createFileList
  simp only
  split
  · simp
  · split
    · rename_i err hw
      rw [writeEntries_error fl files 0 [] err hw]
      simp
    · split <;> simp

theorem runEngine_error (fl : NativeFaults) (output : GoString) (w : World) :
    (runEngine fl output w).1 ≠ some .noVideoFiles := by
  unfold runEngine
  split
  · simp
  · split
    · simp
    · split
      · simp
      · simp only
        split
        · simp
        · split <;> simp

theorem runEngine_trace (fl : NativeFaults) (output : GoString) (w : World) (e : Effect)
    (he : e ∈ w.trace) : e ∈ (runEngine fl output w).2.trace := by
  unfold runEngine
  split
  · exact he
  · split
    · exact he
    · split
      · exact he
      · simp only
        split
        · simp [he]
        · split <;> simp [he]

/-- Claim C8: merging zero files fails without touching the engine.
`mergeVideos` on the empty list returns the error `no video files to merge`
and leaves the world as it was: no `os.Create`, no engine start.
`mergeVideosGo` on an empty `fileNames` array returns a rejected promise and
makes no call on the engine (with well-typed arguments the reason is
`No files provided for merging`). For a non-empty list neither function fails
at this check: `mergeVideos` goes on to `os.Create`, and `mergeVideosGo` never
reports `No files provided for merging`. -/
theorem merge_empty_input (fl : NativeFaults) (output : GoString) (w : World) (eng : Bridge)
    (st : BridgeState) :
    mergeVideos fl [] output w = (some .noVideoFiles, w) ∧
      (∀ args, args.head? = some (.array []) →
        ∃ why, mergeVideosGo eng args st = { outcome := .rejected why, state := st }) ∧
      (∀ contents cb rest,
        mergeVideosGo eng (.array [] :: .array contents :: .function cb :: rest) st =
          { outcome := .rejected .noFiles, state := st }) ∧
      (∀ files, files ≠ [] →
        (mergeVideos fl files output w).1 ≠ some .noVideoFiles ∧
          Effect.osCreate listPath ∈ (mergeVideos fl files output w).2.trace) ∧
      (∀ args names, args.head? = some (.array names) → names ≠ [] →
        (mergeVideosGo eng args st).outcome ≠ .rejected .noFiles) := by
  refine ⟨by simp [mergeVideos], fun args h => mergeVideosGo_empty eng args st h, ?_, ?_,
    fun args names h hne => mergeVideosGo_nonempty eng args st names h hne⟩
  · intro contents cb rest
    simp [mergeVideosGo, JsValue.type, JsValue.lengthType, JsValue.length]
  · intro files hne
    have hlen : files.length ≠ 0 := fun e => hne (List.eq_nil_of_length_eq_zero e)
    have htr := createFileList_trace fl files listPath w
    have herr := createFileList_error fl files listPath w
    rw [mergeVideos, if_neg hlen]
    cases hc : createFileList fl files listPath w with
    | mk err w1 =>
      rw [hc] at htr herr
      simp only at htr herr
      have hmem : Effect.osCreate listPath ∈ w1.trace := by simp [htr]
      cases err with
      | some e => exact ⟨herr, hmem⟩
      | none =>
        refine ⟨runEngine_error fl output w1, ?_⟩
        simp only [osRemove, List.mem_append]
        exact Or.inl (runEngine_trace fl output w1 _ hmem)

/-- Witness for claim C8: the empty array on the bridge, and a list
of one file on both paths. -/
theorem merge_empty_input_witness :
    (mergeVideosGo healthyEngine [.array [], .array [], .function 0] freshEngine).state.calls = [] ∧
      (mergeVideos noFaults [utf8 "a1.mp4"] (utf8 "out.mp4") emptyWorld).1 ≠ some .noVideoFiles ∧
      (mergeVideosGo healthyEngine
        [.array [.string (utf8 "a1.mp4")], .array [.uint8Array [7]], .function 0]
        freshEngine).outcome ≠ .rejected .noFiles :=
  have h := merge_empty_input noFaults (utf8 "out.mp4") emptyWorld healthyEngine freshEngine
  ⟨by rw [h.2.2.1 [] 0 []]; rfl, (h.2.2.2.1 [utf8 "a1.mp4"] (by decide)).1,
    h.2.2.2.2 _ [.string (utf8 "a1.mp4")] rfl (by simp)⟩

end VideoMerge
